import Mathlib

/-!
Verification development for the ReconX probe-orchestration engine
(`src/reconx.py`).

The Python program is shallowly embedded:

* machine floats used for wall-clock seconds are modelled as rationals;
* the wall clock (`time.time()`) is an oracle `clock : Nat → Rat`, indexed by
  how many times the dispatcher has read it;
* Python modules are opaque capabilities: importing a module path either
  raises (an error string) or yields a `PyModule`, whose `run` attribute is
  absent, present but not callable, or a callable function;
* a module's `run` may be stateful (Python modules can keep global state), so
  run functions thread an abstract world state `σ`;
* Python dictionaries (insertion ordered, last write wins in place) are
  association lists without duplicate keys, updated by `dictSet`;
* exceptions are `Except String` / explicit result sums, the message being
  the Python `str(e)` of the exception (which may be the empty string).
-/

/-- Python `str.strip()` whitespace test (ASCII whitespace characters). -/
def pyIsSpace (c : Char) : Bool :=
  c = ' ' || c = '\t' || c = '\n' || c = '\r' || c = '\x0b' || c = '\x0c'

/-- Strip leading and trailing whitespace from a character list. -/
def stripChars (cs : List Char) : List Char :=
  ((cs.dropWhile pyIsSpace).reverse.dropWhile pyIsSpace).reverse

/-- Python `name.strip()`. -/
def pyStrip (s : String) : String :=
  String.mk (stripChars s.data)

/-- JSON-like structured value: the shape of module result data and of the
serialized report document.  Numbers are exact decimals `m / 10 ^ e`
(Python floats and ints written in decimal notation). -/
inductive Value where
  | null : Value
  | bool (b : Bool) : Value
  | num (m : ℤ) (e : ℕ) : Value
  | str (s : String) : Value
  | arr (elems : List Value) : Value
  | obj (fields : List (String × Value)) : Value
deriving Repr

mutual

/-- Structural boolean equality on values. -/
def Value.beq : Value → Value → Bool
  | .null, .null => true
  | .bool b, .bool c => b == c
  | .num m e, .num m' e' => m == m' && e == e'
  | .str s, .str t => s == t
  | .arr xs, .arr ys => Value.beqList xs ys
  | .obj fs, .obj gs => Value.beqFields fs gs
  | _, _ => false

/-- Pointwise equality of value lists. -/
def Value.beqList : List Value → List Value → Bool
  | [], [] => true
  | x :: xs, y :: ys => Value.beq x y && Value.beqList xs ys
  | _, _ => false

/-- Pointwise equality of field lists. -/
def Value.beqFields : List (String × Value) → List (String × Value) → Bool
  | [], [] => true
  | (k, v) :: fs, (k', v') :: gs =>
      k == k' && Value.beq v v' && Value.beqFields fs gs
  | _, _ => false

end

/-- Size of a pair bound for nested recursion. -/
theorem sizeOf_snd_lt_of_mem {fs : List (String × Value)} {p : String × Value}
    (h : p ∈ fs) : sizeOf p.2 < sizeOf fs := by
  have h1 : sizeOf p < sizeOf fs := List.sizeOf_lt_of_mem h
  obtain ⟨a, b⟩ := p
  simp only at h1 ⊢
  have : sizeOf b < sizeOf (a, b) := by simp
  omega

/-- Structural induction principle for `Value` with membership hypotheses
for the nested lists. -/
theorem Value.inductionOn {P : Value → Prop}
    (hnull : P .null) (hbool : ∀ b, P (.bool b))
    (hnum : ∀ m e, P (.num m e)) (hstr : ∀ s, P (.str s))
    (harr : ∀ l, (∀ x ∈ l, P x) → P (.arr l))
    (hobj : ∀ fs, (∀ p ∈ fs, P p.2) → P (.obj fs)) : ∀ v, P v
  | .null => hnull
  | .bool b => hbool b
  | .num m e => hnum m e
  | .str s => hstr s
  | .arr l => harr l (fun x hx =>
      Value.inductionOn hnull hbool hnum hstr harr hobj x)
  | .obj fs => hobj fs (fun p hp =>
      Value.inductionOn hnull hbool hnum hstr harr hobj p.2)
termination_by v => sizeOf v
decreasing_by
  · have := List.sizeOf_lt_of_mem hx
    simp only [Value.arr.sizeOf_spec]
    omega
  · have := sizeOf_snd_lt_of_mem hp
    simp only [Value.obj.sizeOf_spec]
    omega

/-- Boolean equality agrees with propositional equality. -/
theorem Value.beq_iff : ∀ v w : Value, (Value.beq v w = true) ↔ v = w := by
  intro v
  induction v using Value.inductionOn with
  | hnull => intro w; cases w <;> simp [Value.beq]
  | hbool b => intro w; cases w <;> simp [Value.beq]
  | hnum m e => intro w; cases w <;> simp [Value.beq]
  | hstr s => intro w; cases w <;> simp [Value.beq]
  | harr l ih =>
    intro w
    cases w <;> simp only [Value.beq] <;> try simp
    rename_i ys
    induction l generalizing ys with
    | nil => cases ys <;> simp [Value.beqList]
    | cons x xs ihl =>
      cases ys with
      | nil => simp [Value.beqList]
      | cons y ys =>
        simp only [Value.beqList, Bool.and_eq_true]
        rw [ih x (by simp), ihl (fun z hz => ih z (by simp [hz])) ys]
        simp
  | hobj fs ih =>
    intro w
    cases w <;> simp only [Value.beq] <;> try simp
    rename_i gs
    induction fs generalizing gs with
    | nil => cases gs <;> simp [Value.beqFields]
    | cons p ps ihl =>
      cases gs with
      | nil => obtain ⟨k, v⟩ := p; simp [Value.beqFields]
      | cons q qs =>
        obtain ⟨k, v⟩ := p
        obtain ⟨k', v'⟩ := q
        simp only [Value.beqFields, Bool.and_eq_true]
        rw [ih ⟨k, v⟩ (by simp)]
        rw [ihl (fun z hz => ih z (by simp [hz])) qs]
        simp [Prod.ext_iff, and_assoc]

instance : DecidableEq Value := fun v w =>
  decidable_of_iff _ (Value.beq_iff v w)

/-- The options dictionary built by the dispatcher for each invocation:
`\x7b"timeout": args.timeout, "top_ports": args.top_ports\x7d`. -/
structure Options where
  timeout : ℚ
  top_ports : ℤ
deriving Repr, DecidableEq

/-- One entry of the `results` dictionary: either
`\x7b"elapsed": ..., "data": ...\x7d` or `\x7b"error": ...\x7d`. -/
inductive Outcome where
  | success (elapsed : ℚ) (data : Value) : Outcome
  | failure (message : String) : Outcome
deriving Repr

/-- The parsed command-line arguments (`argparse` namespace). -/
structure Args where
  target : String
  modules : String
  timeout : ℚ
  output : Option String
  top_ports : ℤ
  no_color : Bool
  quiet : Bool

/-- Result of calling a module's `run`: a returned value or a raised
exception carrying its `str(e)` rendering. -/
inductive RunResult where
  | ok (v : Value) : RunResult
  | exn (msg : String) : RunResult
deriving Repr

/-- The `run` attribute of a loaded module, when present: either not
callable, or a callable taking `(target, options)` and threading the
abstract module-world state `σ`. -/
inductive Attr (σ : Type) where
  | notCallable : Attr σ
  | callable (f : String → Options → σ → RunResult × σ) : Attr σ

/-- An imported Python module, as seen through `getattr(mod, "run", None)`. -/
structure PyModule (σ : Type) where
  runAttr : Option (Attr σ)

/-- The ambient environment: what `importlib.import_module` does on each
module path, and the wall clock read by successive `time.time()` calls. -/
structure Env (σ : Type) where
  importMod : String → Except String (PyModule σ)
  clock : ℕ → ℚ

/-- The registry `AVAILABLE_MODULES` from `reconx.py`. -/
def AVAILABLE_MODULES : List (String × String) :=
  [("dns", "modules.dns_lookup"),
   ("whois", "modules.whois_lookup"),
   ("headers", "modules.headers"),
   ("portscan", "modules.portscan")]

/-- Python `name in AVAILABLE_MODULES` / `AVAILABLE_MODULES[name]`. -/
def registryLookup (name : String) : Option String :=
  AVAILABLE_MODULES.lookup name

/-- Embedding of `load_module_by_name`: unknown names raise
`ValueError(f"Unknown module '...'")`; an import failure is wrapped as
`ImportError(f"Failed to import module '...' (path): cause")`.  The error
string is the `str(e)` the caller will store. -/
def load_module_by_name (env : Env σ) (name : String) :
    Except String (PyModule σ) :=
  match registryLookup name with
  | none => .error ("Unknown module '" ++ name ++ "'")
  | some mod_path =>
    match env.importMod mod_path with
    | .error e =>
        .error ("Failed to import module '" ++ name ++ "' (" ++ mod_path ++ "): " ++ e)
    | .ok m => .ok m

/-- Round half to even at integer precision (Python `round`). -/
def roundHalfEven (x : ℚ) : ℤ :=
  if x - (⌊x⌋ : ℚ) < 1/2 then ⌊x⌋
  else if 1/2 < x - (⌊x⌋ : ℚ) then ⌊x⌋ + 1
  else if ⌊x⌋ % 2 = 0 then ⌊x⌋ else ⌊x⌋ + 1

/-- Python `round(x, 2)`. -/
def round2 (x : ℚ) : ℚ :=
  ((roundHalfEven (x * 100) : ℚ)) / 100

/-- Python dict assignment `d[k] = v`: update in place when the key exists
(keeping its position), else append the new binding. -/
def dictSet (d : List (String × Outcome)) (k : String) (v : Outcome) :
    List (String × Outcome) :=
  if d.any (fun p => p.1 == k) then
    d.map (fun p => if p.1 == k then (k, v) else p)
  else
    d ++ [(k, v)]

/-- Python `d.get(k)` / `d[k]`: first (unique) binding of the key. -/
def dictGet : List (String × Outcome) → String → Option Outcome
  | [], _ => none
  | p :: rest, k => if p.1 = k then some p.2 else dictGet rest k

/-- The keys of a dict, in insertion order. -/
def keysOf (d : List (String × Outcome)) : List String :=
  d.map (fun p => p.1)

/-- What happened while handling one non-blank requested name
(ghost instrumentation used to state ordering and provenance properties;
it is not part of the Python program's state). -/
inductive StepAction where
  | loadFailed (msg : String) : StepAction
  | missingRun : StepAction
  | ran (opts : Options) (startTick : ℕ) (result : RunResult) : StepAction

/-- One step of the dispatcher's trace: the handled (trimmed) name, what
happened, and the outcome recorded into `results`. -/
structure TraceStep where
  name : String
  action : StepAction
  outcome : Outcome

/-- Dispatcher state: the `results` dict, the abstract module-world state,
the number of `time.time()` calls made so far, and the ghost trace. -/
structure DState (σ : Type) where
  results : List (String × Outcome)
  world : σ
  tick : ℕ
  trace : List TraceStep

def handleCall (env : Env σ) (target : String) (args : Args) (name : String)
    (run_fn : String → Options → σ → RunResult × σ) (w : σ) (t : ℕ) :
    TraceStep × σ × ℕ :=
  let start := env.clock t
  match run_fn target ⟨args.timeout, args.top_ports⟩ w with
  | (.ok res, w') =>
    let elapsed := env.clock (t + 1) - start
    (⟨name, .ran ⟨args.timeout, args.top_ports⟩ t (.ok res),
      .success (round2 elapsed) res⟩, w', t + 2)
  | (.exn e, w') =>
    (⟨name, .ran ⟨args.timeout, args.top_ports⟩ t (.exn e), .failure e⟩,
     w', t + 1)

/-- Lines 72-84: check the loaded module's `run` attribute; time and call
it when callable, record the contract violation otherwise. -/
def handleLoaded (env : Env σ) (target : String) (args : Args) (name : String)
    (mod : PyModule σ) (w : σ) (t : ℕ) : TraceStep × σ × ℕ :=
  match mod.runAttr with
  | some (.callable run_fn) => handleCall env target args name run_fn w t
  | _ =>
    (⟨name, .missingRun, .failure "module missing run(target, options) function"⟩,
     w, t)

/-- The body of the `for` loop of `run_modules` for one (already trimmed,
non-blank) name: lines 66-84 of `reconx.py`.  Returns the recorded step,
the new world state and the new clock-read count.  `time.time()` is read
at ticks `t` and `t + 1` immediately around the `run` call; when `run`
raises, the second read never happens. -/
def handleName (env : Env σ) (target : String) (args : Args) (name : String)
    (w : σ) (t : ℕ) : TraceStep × σ × ℕ :=
  match load_module_by_name env name with
  | .error e => (⟨name, .loadFailed e, .failure e⟩, w, t)
  | .ok mod => handleLoaded env target args name mod w t

/-- The `for name in module_names` loop of `run_modules` (lines 62-84):
strip each raw name, skip blanks, otherwise handle the name and record its
outcome in the results dict. -/
def runModulesLoop (env : Env σ) (target : String) (args : Args) :
    List String → DState σ → DState σ
  | [], st => st
  | rawName :: rest, st =>
    let name := pyStrip rawName
    if name = "" then
      runModulesLoop env target args rest st
    else
      let (step, w', t') := handleName env target args name st.world st.tick
      runModulesLoop env target args rest
        ⟨dictSet st.results name step.outcome, w', t', st.trace ++ [step]⟩

/-- Embedding of `run_modules(target, module_names, args)`, starting from
the initial world state `w`. -/
def run_modules (env : Env σ) (w : σ) (target : String)
    (module_names : List String) (args : Args) : DState σ :=
  runModulesLoop env target args module_names ⟨[], w, 0, []⟩

/-- The trimmed, non-blank names actually handled by the dispatcher, in
request order. -/
def filteredNames (names : List String) : List String :=
  (names.map pyStrip).filter (fun s => s ≠ "")

/-- Append a key if absent (the effect of one dict write on the key list). -/
def insertIfAbsent (ks : List String) (k : String) : List String :=
  if k ∈ ks then ks else ks ++ [k]

/-- Deduplicate keeping first occurrences (Python dict key order). -/
def dedupFirst (l : List String) : List String :=
  l.foldl insertIfAbsent []

deriving instance DecidableEq for Outcome

deriving instance DecidableEq for RunResult

deriving instance DecidableEq for StepAction

deriving instance DecidableEq for TraceStep

/-- The outcome recorded by the chronologically last handling of `k`. -/
def lastOutcome (k : String) (tr : List TraceStep) : Option Outcome :=
  ((tr.filter (fun s => s.name = k)).getLast?).map (fun s => s.outcome)

/-- The entry rewrite a Python in-place dict update performs. -/
def updEntry (k : String) (v : Outcome) (p : String × Outcome) :
    String × Outcome :=
  if p.1 == k then (k, v) else p

theorem updEntry_fst (k : String) (v : Outcome) (p : String × Outcome) :
    (updEntry k v p).1 = p.1 := by
  unfold updEntry
  by_cases h : p.1 = k
  · simp [h]
  · simp [h]

theorem keysOf_map_update (d : List (String × Outcome)) (k : String)
    (v : Outcome) :
    keysOf (d.map (updEntry k v)) = keysOf d := by
  induction d with
  | nil => rfl
  | cons p rest ih =>
    simp only [List.map_cons, keysOf] at ih ⊢
    rw [updEntry_fst, ih]

theorem dictGet_map_update_ne (d : List (String × Outcome)) (k : String)
    (v : Outcome) (k' : String) (h : k' ≠ k) :
    dictGet (d.map (updEntry k v)) k' = dictGet d k' := by
  induction d with
  | nil => rfl
  | cons p rest ih =>
    obtain ⟨pk, pv⟩ := p
    simp only [List.map_cons, dictGet]
    by_cases hp' : pk = k'
    · subst hp'
      have hpk : ¬ (pk = k) := fun he => h (he ▸ rfl)
      have hu : updEntry k v (pk, pv) = (pk, pv) := by
        unfold updEntry; simp [hpk]
      rw [hu]
      simp
    · have hfst : (updEntry k v (pk, pv)).1 = pk := updEntry_fst k v (pk, pv)
      rw [hfst, if_neg hp', if_neg hp', ih]

theorem dictGet_map_update_self (d : List (String × Outcome)) (k : String)
    (v : Outcome) (h : k ∈ keysOf d) :
    dictGet (d.map (updEntry k v)) k = some v := by
  induction d with
  | nil => simp [keysOf] at h
  | cons p rest ih =>
    obtain ⟨pk, pv⟩ := p
    by_cases hpk : pk = k
    · subst hpk
      have hu : updEntry pk v (pk, pv) = (pk, v) := by
        unfold updEntry; simp
      simp [List.map_cons, hu, dictGet]
    · have hmem : k ∈ keysOf rest := by
        simp only [keysOf, List.map_cons, List.mem_cons] at h
        rcases h with h | h
        · exact absurd h.symm hpk
        · exact h
      have hu : updEntry k v (pk, pv) = (pk, pv) := by
        unfold updEntry; simp [hpk]
      simp only [List.map_cons, hu, dictGet, hpk, if_false]
      exact ih hmem

theorem dictGet_eq_none (d : List (String × Outcome)) (k : String)
    (h : k ∉ keysOf d) : dictGet d k = none := by
  induction d with
  | nil => rfl
  | cons p rest ih =>
    obtain ⟨pk, pv⟩ := p
    simp only [keysOf, List.map_cons, List.mem_cons, not_or] at h
    have h1 : ¬ (pk = k) := fun he => h.1 he.symm
    rw [dictGet, if_neg h1]
    exact ih (by simpa [keysOf] using h.2)

theorem dictGet_append (d1 d2 : List (String × Outcome)) (k : String) :
    dictGet (d1 ++ d2) k =
      if k ∈ keysOf d1 then dictGet d1 k else dictGet d2 k := by
  induction d1 with
  | nil => simp [dictGet, keysOf]
  | cons p rest ih =>
    obtain ⟨pk, pv⟩ := p
    by_cases hp : pk = k
    · subst hp
      simp [dictGet, keysOf]
    · have hne : ¬ (k = pk) := fun he => hp he.symm
      simp only [List.cons_append, dictGet, if_neg hp, keysOf, List.map_cons,
        List.mem_cons, hne, false_or]
      simp only [keysOf] at ih
      exact ih

theorem any_eq_true_iff_mem_keysOf (d : List (String × Outcome))
    (k : String) :
    (d.any (fun p => p.1 == k)) = true ↔ k ∈ keysOf d := by
  simp only [List.any_eq_true, beq_iff_eq, keysOf, List.mem_map]

/-- Characterisation of a Python dict write. -/
theorem dictGet_dictSet (d : List (String × Outcome)) (k : String)
    (v : Outcome) (k' : String) :
    dictGet (dictSet d k v) k' = if k' = k then some v else dictGet d k' := by
  unfold dictSet
  have hupd : (fun p : String × Outcome => if p.1 == k then (k, v) else p) =
      updEntry k v := rfl
  rw [hupd]
  by_cases hany : (d.any (fun p => p.1 == k)) = true
  · have hmem : k ∈ keysOf d := (any_eq_true_iff_mem_keysOf d k).mp hany
    rw [if_pos hany]
    by_cases hk' : k' = k
    · subst hk'; rw [if_pos rfl, dictGet_map_update_self d k' v hmem]
    · rw [if_neg hk', dictGet_map_update_ne d k v k' hk']
  · have hmem : k ∉ keysOf d := fun h =>
      hany ((any_eq_true_iff_mem_keysOf d k).mpr h)
    rw [if_neg hany, dictGet_append]
    by_cases hk' : k' = k
    · subst hk'
      simp [hmem, dictGet, dictGet_eq_none d k' hmem]
    · by_cases hk'd : k' ∈ keysOf d
      · simp [hk'd, hk']
      · have hne : ¬ (k = k') := fun he => hk' he.symm
        simp [hk'd, hk', dictGet, hne, dictGet_eq_none d k' hk'd]

/-- Effect of a dict write on the key list. -/
theorem keysOf_dictSet (d : List (String × Outcome)) (k : String)
    (v : Outcome) :
    keysOf (dictSet d k v) = insertIfAbsent (keysOf d) k := by
  unfold dictSet insertIfAbsent
  have hupd : (fun p : String × Outcome => if p.1 == k then (k, v) else p) =
      updEntry k v := rfl
  rw [hupd]
  by_cases hany : (d.any (fun p => p.1 == k)) = true
  · have hmem : k ∈ keysOf d := (any_eq_true_iff_mem_keysOf d k).mp hany
    rw [if_pos hany, if_pos hmem, keysOf_map_update]
  · have hmem : k ∉ keysOf d := fun h =>
      hany ((any_eq_true_iff_mem_keysOf d k).mpr h)
    rw [if_neg hany, if_neg hmem]
    simp [keysOf]

theorem filteredNames_nil : filteredNames [] = [] := rfl

theorem filteredNames_cons (raw : String) (rest : List String) :
    filteredNames (raw :: rest) =
      if pyStrip raw = "" then filteredNames rest
      else pyStrip raw :: filteredNames rest := by
  by_cases hb : pyStrip raw = ""
  · simp [filteredNames, hb]
  · simp [filteredNames, hb]

theorem handleName_fst_name (env : Env σ) (target : String) (args : Args)
    (name : String) (w : σ) (t : ℕ) :
    ((handleName env target args name w t).1).name = name := by
  unfold handleName handleLoaded handleCall
  (repeat' split) <;> rfl

theorem lastOutcome_append_same (k : String) (tr : List TraceStep)
    (s : TraceStep) (h : s.name = k) :
    lastOutcome k (tr ++ [s]) = some s.outcome := by
  unfold lastOutcome
  rw [List.filter_append]
  have : List.filter (fun x => decide (x.name = k)) [s] = [s] := by
    simp [List.filter, h]
  rw [this, List.getLast?_concat]
  rfl

theorem lastOutcome_append_ne (k : String) (tr : List TraceStep)
    (s : TraceStep) (h : ¬ (s.name = k)) :
    lastOutcome k (tr ++ [s]) = lastOutcome k tr := by
  unfold lastOutcome
  rw [List.filter_append]
  have : List.filter (fun x => decide (x.name = k)) [s] = [] := by
    simp [List.filter, h]
  rw [this, List.append_nil]

theorem runModulesLoop_trace_map_name (env : Env σ) (target : String)
    (args : Args) :
    ∀ (names : List String) (st : DState σ),
    ((runModulesLoop env target args names st).trace).map TraceStep.name
      = st.trace.map TraceStep.name ++ filteredNames names := by
  intro names
  induction names with
  | nil => intro st; simp [runModulesLoop, filteredNames]
  | cons raw rest ih =>
    intro st
    by_cases hb : pyStrip raw = ""
    · simp only [runModulesLoop, hb, if_true, if_pos rfl]
      rw [ih st, filteredNames_cons, if_pos hb]
    · rcases hh : handleName env target args (pyStrip raw) st.world st.tick
        with ⟨step, w', t'⟩
      have hname : step.name = pyStrip raw := by
        have h0 := handleName_fst_name env target args (pyStrip raw) st.world st.tick
        rw [hh] at h0
        exact h0
      simp only [runModulesLoop, hh]
      rw [if_neg hb, ih, filteredNames_cons, if_neg hb]
      simp [hname]

theorem runModulesLoop_keys (env : Env σ) (target : String) (args : Args) :
    ∀ (names : List String) (st : DState σ),
    keysOf (runModulesLoop env target args names st).results
      = (filteredNames names).foldl insertIfAbsent (keysOf st.results) := by
  intro names
  induction names with
  | nil => intro st; simp [runModulesLoop, filteredNames]
  | cons raw rest ih =>
    intro st
    by_cases hb : pyStrip raw = ""
    · simp only [runModulesLoop, hb, if_true, if_pos rfl]
      rw [ih st, filteredNames_cons, if_pos hb]
    · rcases hh : handleName env target args (pyStrip raw) st.world st.tick
        with ⟨step, w', t'⟩
      simp only [runModulesLoop, hh]
      rw [if_neg hb, ih, filteredNames_cons, if_neg hb, List.foldl_cons,
        keysOf_dictSet]

theorem runModulesLoop_dictGet (env : Env σ) (target : String) (args : Args) :
    ∀ (names : List String) (st : DState σ),
    (∀ k, dictGet st.results k = lastOutcome k st.trace) →
    ∀ k, dictGet (runModulesLoop env target args names st).results k
      = lastOutcome k (runModulesLoop env target args names st).trace := by
  intro names
  induction names with
  | nil => intro st h k; simpa [runModulesLoop] using h k
  | cons raw rest ih =>
    intro st h k
    by_cases hb : pyStrip raw = ""
    · simp only [runModulesLoop, hb, if_true, if_pos rfl]
      exact ih st h k
    · rcases hh : handleName env target args (pyStrip raw) st.world st.tick
        with ⟨step, w', t'⟩
      have hname : step.name = pyStrip raw := by
        have h0 := handleName_fst_name env target args (pyStrip raw) st.world st.tick
        rw [hh] at h0
        exact h0
      simp only [runModulesLoop, hh]
      rw [if_neg hb]
      refine ih _ (fun k' => ?_) k
      rw [dictGet_dictSet]
      by_cases hk' : k' = pyStrip raw
      · rw [if_pos hk', lastOutcome_append_same k' st.trace step
          (by rw [hname, hk'])]
      · rw [if_neg hk', lastOutcome_append_ne k' st.trace step
          (by rw [hname]; exact fun he => hk' he.symm), h k']

/-- Every step of the trace was produced by `handleName` on its own name. -/
def StepProvenance (env : Env σ) (target : String) (args : Args)
    (s : TraceStep) : Prop :=
  ∃ w t, (handleName env target args s.name w t).1 = s

theorem runModulesLoop_provenance (env : Env σ) (target : String)
    (args : Args) :
    ∀ (names : List String) (st : DState σ),
    (∀ s ∈ st.trace, StepProvenance env target args s) →
    ∀ s ∈ (runModulesLoop env target args names st).trace,
      StepProvenance env target args s := by
  intro names
  induction names with
  | nil => intro st h; simpa [runModulesLoop] using h
  | cons raw rest ih =>
    intro st h
    by_cases hb : pyStrip raw = ""
    · simp only [runModulesLoop, hb, if_true, if_pos rfl]
      exact ih st h
    · rcases hh : handleName env target args (pyStrip raw) st.world st.tick
        with ⟨step, w', t'⟩
      have hname : step.name = pyStrip raw := by
        have h0 := handleName_fst_name env target args (pyStrip raw) st.world st.tick
        rw [hh] at h0
        exact h0
      simp only [runModulesLoop, hh]
      rw [if_neg hb]
      refine ih _ (fun s hs => ?_)
      rcases List.mem_append.mp hs with hs | hs
      · exact h s hs
      · have hstep : s = step := by simpa using hs
        subst hstep
        refine ⟨st.world, st.tick, ?_⟩
        rw [hname, hh]

theorem mem_insertIfAbsent (ks : List String) (x k : String) :
    k ∈ insertIfAbsent ks x ↔ k ∈ ks ∨ k = x := by
  unfold insertIfAbsent
  by_cases h : x ∈ ks
  · simp only [if_pos h]
    constructor
    · exact Or.inl
    · rintro (hk | rfl)
      · exact hk
      · exact h
  · simp [if_neg h]

theorem mem_foldl_insertIfAbsent (l : List String) :
    ∀ (acc : List String) (k : String),
    k ∈ l.foldl insertIfAbsent acc ↔ k ∈ acc ∨ k ∈ l := by
  induction l with
  | nil => intro acc k; simp
  | cons x xs ih =>
    intro acc k
    rw [List.foldl_cons, ih, mem_insertIfAbsent]
    constructor
    · rintro ((hk | rfl) | hk)
      · exact Or.inl hk
      · exact Or.inr (by simp)
      · exact Or.inr (by simp [hk])
    · rintro (hk | hk)
      · exact Or.inl (Or.inl hk)
      · rcases List.mem_cons.mp hk with rfl | hk
        · exact Or.inl (Or.inr rfl)
        · exact Or.inr hk

theorem nodup_insertIfAbsent (ks : List String) (x : String)
    (h : ks.Nodup) : (insertIfAbsent ks x).Nodup := by
  unfold insertIfAbsent
  by_cases hx : x ∈ ks
  · simpa [if_pos hx] using h
  · rw [if_neg hx]
    simpa [List.nodup_append, h] using hx

theorem nodup_foldl_insertIfAbsent (l : List String) :
    ∀ (acc : List String), acc.Nodup → (l.foldl insertIfAbsent acc).Nodup := by
  induction l with
  | nil => intro acc h; simpa
  | cons x xs ih =>
    intro acc h
    rw [List.foldl_cons]
    exact ih _ (nodup_insertIfAbsent acc x h)

theorem dictGet_isSome_of_mem (d : List (String × Outcome)) (k : String)
    (h : k ∈ keysOf d) : ∃ o, dictGet d k = some o := by
  induction d with
  | nil => simp [keysOf] at h
  | cons p rest ih =>
    obtain ⟨pk, pv⟩ := p
    by_cases hp : pk = k
    · exact ⟨pv, by simp [dictGet, hp]⟩
    · have : k ∈ keysOf rest := by
        simp only [keysOf, List.map_cons, List.mem_cons] at h
        rcases h with h | h
        · exact absurd h.symm hp
        · exact h
      obtain ⟨o, ho⟩ := ih this
      exact ⟨o, by simp [dictGet, hp, ho]⟩

/-- The handled names of a whole run, in execution order. -/
theorem run_modules_trace_names (env : Env σ) (w : σ) (target : String)
    (names : List String) (args : Args) :
    ((run_modules env w target names args).trace).map TraceStep.name
      = filteredNames names := by
  unfold run_modules
  rw [runModulesLoop_trace_map_name]
  rfl

/-- The keys of a whole run's results dict. -/
theorem run_modules_keys (env : Env σ) (w : σ) (target : String)
    (names : List String) (args : Args) :
    keysOf (run_modules env w target names args).results
      = dedupFirst (filteredNames names) := by
  unfold run_modules dedupFirst
  rw [runModulesLoop_keys]
  rfl

/-- Every results entry is the outcome of the last handling of its key. -/
theorem run_modules_dictGet (env : Env σ) (w : σ) (target : String)
    (names : List String) (args : Args) (k : String) :
    dictGet (run_modules env w target names args).results k
      = lastOutcome k (run_modules env w target names args).trace := by
  unfold run_modules
  exact runModulesLoop_dictGet env target args names ⟨[], w, 0, []⟩
    (fun k' => by simp [dictGet, lastOutcome]) k

/-- Every trace step of a whole run came from `handleName`. -/
theorem run_modules_provenance (env : Env σ) (w : σ) (target : String)
    (names : List String) (args : Args) :
    ∀ s ∈ (run_modules env w target names args).trace,
      StepProvenance env target args s := by
  unfold run_modules
  exact runModulesLoop_provenance env target args names _ (by simp)

/-- Key membership for a whole run. -/
theorem run_modules_mem_keys (env : Env σ) (w : σ) (target : String)
    (names : List String) (args : Args) (k : String) :
    k ∈ keysOf (run_modules env w target names args).results ↔
      k ∈ filteredNames names := by
  rw [run_modules_keys]
  unfold dedupFirst
  rw [mem_foldl_insertIfAbsent]
  simp

theorem stripChars_eq_rdropWhile (cs : List Char) :
    stripChars cs =
      List.rdropWhile pyIsSpace (List.dropWhile pyIsSpace cs) := by
  simp [stripChars, List.rdropWhile]

theorem getZeroEqOfPrefixRel {α : Type} {l₁ l₂ : List α} (h : l₁ <+: l₂)
    (hl : 0 < l₁.length) (hl2 : 0 < l₂.length) :
    l₂.get ⟨0, hl2⟩ = l₁.get ⟨0, hl⟩ := by
  obtain ⟨t, rfl⟩ := h
  exact List.get_append 0 hl

theorem dropWhile_stripChars (cs : List Char) :
    List.dropWhile pyIsSpace (stripChars cs) = stripChars cs := by
  rw [stripChars_eq_rdropWhile]
  rw [List.dropWhile_eq_self_iff]
  intro hl hp
  have hpre : List.rdropWhile pyIsSpace (List.dropWhile pyIsSpace cs) <+:
      List.dropWhile pyIsSpace cs := List.rdropWhile_prefix _ _
  have hlen : 0 < (List.dropWhile pyIsSpace cs).length := by
    obtain ⟨t, ht⟩ := hpre
    rw [← ht, List.length_append]
    omega
  have hhead := List.dropWhile_get_zero_not pyIsSpace cs hlen
  have heq := getZeroEqOfPrefixRel hpre hl hlen
  rw [← heq] at hp
  exact hhead hp

theorem stripChars_idempotent (cs : List Char) :
    stripChars (stripChars cs) = stripChars cs := by
  conv_lhs => rw [stripChars_eq_rdropWhile (stripChars cs)]
  rw [dropWhile_stripChars, stripChars_eq_rdropWhile,
    List.rdropWhile_idempotent]

theorem pyStrip_idempotent (s : String) : pyStrip (pyStrip s) = pyStrip s := by
  unfold pyStrip
  rw [stripChars_idempotent]

/-- Lowercase hexadecimal digit, as Python's json module emits. -/
def hexDigitChar (n : ℕ) : Char :=
  if n < 10 then Char.ofNat (48 + n) else Char.ofNat (87 + n)

/-- Four-digit lowercase hex rendering of `n < 0x10000`. -/
def toHex4 (n : ℕ) : List Char :=
  [hexDigitChar (n / 4096 % 16), hexDigitChar (n / 256 % 16),
   hexDigitChar (n / 16 % 16), hexDigitChar (n % 16)]

/-- Escape of one character in a JSON string literal, following
`json.dump` with its default `ensure_ascii=True`: short escapes for the
common control characters, `u` escapes (with surrogate pairs beyond the
basic plane) for other control and non-ASCII characters. -/
def escChar (c : Char) : List Char :=
  if c = '"' then ['\\', '"']
  else if c = '\\' then ['\\', '\\']
  else if c = '\n' then ['\\', 'n']
  else if c = '\t' then ['\\', 't']
  else if c = '\r' then ['\\', 'r']
  else if c = '\x08' then ['\\', 'b']
  else if c = '\x0c' then ['\\', 'f']
  else if 0x20 ≤ c.toNat ∧ c.toNat ≤ 0x7e then [c]
  else if c.toNat < 0x10000 then '\\' :: 'u' :: toHex4 c.toNat
  else
    ('\\' :: 'u' :: toHex4 (0xd800 + (c.toNat - 0x10000) / 1024)) ++
    ('\\' :: 'u' :: toHex4 (0xdc00 + (c.toNat - 0x10000) % 1024))

/-- Escape a whole character sequence. -/
def escList : List Char → List Char
  | [] => []
  | c :: cs => escChar c ++ escList cs

/-- A JSON string literal with its quotes. -/
def printJString (s : String) : List Char :=
  '"' :: (escList s.data ++ ['"'])

/-- Decimal digit character. -/
def digitChar (d : ℕ) : Char := Char.ofNat (48 + d)

/-- Decimal digits of a natural number, most significant first. -/
def natChars (n : ℕ) : List Char :=
  if n = 0 then ['0'] else ((Nat.digits 10 n).map digitChar).reverse

/-- Left-pad a digit string with zeros to width `e`. -/
def padZeros (e : ℕ) (ds : List Char) : List Char :=
  List.replicate (e - ds.length) '0' ++ ds

/-- Decimal rendering of the number `m / 10 ^ e`. -/
def printNum (m : ℤ) (e : ℕ) : List Char :=
  (if m < 0 then ['-'] else []) ++
  (if e = 0 then natChars m.natAbs
   else natChars (m.natAbs / 10 ^ e) ++
     '.' :: padZeros e (natChars (m.natAbs % 10 ^ e)))

/-- An indentation prefix. -/
def spacesList (n : ℕ) : List Char := List.replicate n ' '

mutual

/-- Rendering of a value by `json.dump(..., indent=2)` at indentation
level `ind`: containers break onto their own lines, two extra spaces per
level, `": "` after keys and `","` between items. -/
def printValue (ind : ℕ) : Value → List Char
  | .null => ['n', 'u', 'l', 'l']
  | .bool false => ['f', 'a', 'l', 's', 'e']
  | .bool true => ['t', 'r', 'u', 'e']
  | .num m e => printNum m e
  | .str s => printJString s
  | .arr [] => ['[', ']']
  | .arr (x :: xs) =>
      '[' :: '\n' ::
        (printElemsList (ind + 2) (x :: xs) ++ '\n' :: spacesList ind ++ [']'])
  | .obj [] => ['{', '}']
  | .obj (f :: fs) =>
      '{' :: '\n' ::
        (printFieldsList (ind + 2) (f :: fs) ++ '\n' :: spacesList ind ++ ['}'])

/-- The items of a non-empty array, each on its own indented line. -/
def printElemsList (ind : ℕ) : List Value → List Char
  | [] => []
  | [x] => spacesList ind ++ printValue ind x
  | x :: y :: ys =>
      spacesList ind ++ printValue ind x ++ ',' :: '\n' ::
        printElemsList ind (y :: ys)

/-- The fields of a non-empty object, each on its own indented line. -/
def printFieldsList (ind : ℕ) : List (String × Value) → List Char
  | [] => []
  | [(k, v)] => spacesList ind ++ printJString k ++ ':' :: ' ' :: printValue ind v
  | (k, v) :: g :: gs =>
      spacesList ind ++ printJString k ++ ':' :: ' ' :: printValue ind v ++
        ',' :: '\n' :: printFieldsList ind (g :: gs)

end

/-- The serialized JSON document. -/
def jsonPrint (v : Value) : String := String.mk (printValue 0 v)

/-- The in-memory report `main` serializes:
`json.dump(\x7b"target": ..., "modules": ..., "results": ...\x7d, fh, indent=2)`. -/
structure Report where
  target : String
  modules : List String
  results : List (String × Outcome)

/-- A two-decimal rational as a JSON number (exact when `q * 100` is an
integer, which holds for every elapsed value the dispatcher stores). -/
def ratToDec2 (q : ℚ) : Value := Value.num ⌊q * 100⌋ 2

/-- One results entry as a JSON value. -/
def outcomeJson : Outcome → Value
  | .success el d => .obj [("elapsed", ratToDec2 el), ("data", d)]
  | .failure e => .obj [("error", .str e)]

/-- The report as the JSON document `main` writes. -/
def reportJson (r : Report) : Value :=
  .obj [("target", .str r.target),
        ("modules", .arr (r.modules.map Value.str)),
        ("results", .obj (r.results.map (fun p => (p.1, outcomeJson p.2))))]

/-- Python `s.split(sep)` for a one-character separator: split at every
occurrence of the separator, keeping empty pieces (so `"".split(",")` is
`[""]`). -/
def splitOnCharList (sep : Char) : List Char → List (List Char)
  | [] => [[]]
  | c :: cs =>
    if c = sep then [] :: splitOnCharList sep cs
    else
      match splitOnCharList sep cs with
      | [] => [[c]]
      | g :: gs => (c :: g) :: gs

/-- Python `s.split(",")` and the like. -/
def pySplit (sep : Char) (s : String) : List String :=
  (splitOnCharList sep s.data).map String.mk

/-- Line 99 of `reconx.py`:
`modules = [m.strip() for m in args.modules.split(",") if m.strip()]`. -/
def argModules (args : Args) : List String :=
  ((pySplit ',' args.modules).map pyStrip).filter (fun m => m ≠ "")

/-- One `pretty_print_section` call: an error section (title and message)
or a success section (title with elapsed time and the data value). -/
inductive RSection where
  | err (mod : String) (message : String) : RSection
  | ok (mod : String) (elapsed : ℚ) (data : Value) : RSection
deriving Repr, DecidableEq

/-- The module name a section renders. -/
def sectionModName : RSection → String
  | .err m _ => m
  | .ok m _ _ => m

/-- Console and error-channel events emitted by `main`, in program order. -/
inductive OutEv where
  | line (s : String) : OutEv
  | sec (r : RSection) : OutEv
  | errLine (s : String) : OutEv
deriving Repr, DecidableEq

/-- The collaborators `main` uses besides the dispatcher: the module
environment, the initial module-world state, and the report writer
(open + `json.dump`, either succeeding or raising `str(e)`). -/
structure MainEnv (σ : Type) where
  env : Env σ
  world : σ
  write : String → String → Except String Unit

/-- What a run of `main` produces: its ordered event stream and the
process exit code. -/
structure MainResult where
  events : List OutEv
  exitCode : ℕ

/-- Lines 109-114: render one module's entry; a name missing from the
results dict would fall back to the `\x7b"error": "no result"\x7d` default. -/
def renderEntry (results : List (String × Outcome)) (mod : String) :
    RSection :=
  match (dictGet results mod).getD (Outcome.failure "no result") with
  | .failure e => .err mod e
  | .success el d => .ok mod el d

/-- The banner and target/modules/timeout lines (lines 100-104). -/
def mainHeader (args : Args) : List OutEv :=
  [OutEv.line "=== ReconX v1.0 ===",
   OutEv.line ("Target: " ++ args.target),
   OutEv.line ("Modules: " ++ String.intercalate ", " (argModules args))] ++
  (if args.quiet then [] else [OutEv.line ("Timeout: " ++ toString args.timeout ++ "s")])

/-- The results dict `main` obtains (line 106). -/
def mainResults (menv : MainEnv σ) (args : Args) :
    List (String × Outcome) :=
  (run_modules menv.env menv.world args.target (argModules args) args).results

/-- The console sections, one per displayed module in request order. -/
def mainSections (menv : MainEnv σ) (args : Args) : List RSection :=
  (argModules args).map (renderEntry (mainResults menv args))

/-- The serialized report document (line 121). -/
def mainDoc (menv : MainEnv σ) (args : Args) : String :=
  jsonPrint (reportJson ⟨args.target, argModules args, mainResults menv args⟩)

/-- Lines 117-124: the optional report write, its confirmation line on
stdout, and its failure line on stderr. -/
def mainTail (menv : MainEnv σ) (args : Args) : List OutEv :=
  match args.output with
  | none => []
  | some path =>
    match menv.write path (mainDoc menv args) with
    | .ok _ => [OutEv.line ("Report written to " ++ path)]
    | .error e => [OutEv.errLine ("Failed to write output file: " ++ e)]

/-- Embedding of `main` (lines 87-124) after argument parsing: header,
dispatch, rendering loop, optional persistence.  The Python process falls
off the end of `main`, so the interpreter exits with code 0. -/
def mainRun (menv : MainEnv σ) (args : Args) : MainResult :=
  { events := mainHeader args ++ (mainSections menv args).map OutEv.sec ++
      mainTail menv args,
    exitCode := 0 }

/-- The canonical options record built on line 79. -/
def optionsOf (args : Args) : Options :=
  ⟨args.timeout, args.top_ports⟩

/-- Complete case analysis of one name's handling, matching the four
outcomes of lines 66-84: load failure, missing/uncallable `run`,
successful run, raising run. -/
theorem handleName_cases (env : Env σ) (target : String) (args : Args)
    (name : String) (w : σ) (t : ℕ) :
    (∃ e, load_module_by_name env name = .error e ∧
      (handleName env target args name w t).1 = ⟨name, .loadFailed e, .failure e⟩) ∨
    (∃ mod, load_module_by_name env name = .ok mod ∧
      (∀ f, mod.runAttr ≠ some (.callable f)) ∧
      (handleName env target args name w t).1 =
        ⟨name, .missingRun, .failure "module missing run(target, options) function"⟩) ∨
    (∃ mod f res w', load_module_by_name env name = .ok mod ∧
      mod.runAttr = some (.callable f) ∧
      f target (optionsOf args) w = (.ok res, w') ∧
      (handleName env target args name w t).1 =
        ⟨name, .ran (optionsOf args) t (.ok res),
          .success (round2 (env.clock (t + 1) - env.clock t)) res⟩) ∨
    (∃ mod f e w', load_module_by_name env name = .ok mod ∧
      mod.runAttr = some (.callable f) ∧
      f target (optionsOf args) w = (.exn e, w') ∧
      (handleName env target args name w t).1 =
        ⟨name, .ran (optionsOf args) t (.exn e), .failure e⟩) := by
  rcases hload : load_module_by_name env name with e | mod
  · refine Or.inl ⟨e, rfl, ?_⟩
    simp only [handleName, hload]
  · rcases hattr : mod.runAttr with _ | attr
    · refine Or.inr (Or.inl ⟨mod, rfl,
        (fun f hf => by rw [hattr] at hf; exact Option.noConfusion hf), ?_⟩)
      simp only [handleName, hload, handleLoaded, hattr]
    · rcases attr with _ | f
      · refine Or.inr (Or.inl ⟨mod, rfl,
          (fun f hf => by
            rw [hattr] at hf
            exact Attr.noConfusion (Option.some.inj hf)), ?_⟩)
        simp only [handleName, hload, handleLoaded, hattr]
      · rcases hrun : f target (optionsOf args) w with ⟨res | e, w'⟩
        · refine Or.inr (Or.inr (Or.inl ⟨mod, f, res, w', rfl, hattr, hrun, ?_⟩))
          simp only [handleName, hload, handleLoaded, hattr, handleCall]
          rw [show (⟨args.timeout, args.top_ports⟩ : Options) = optionsOf args from rfl,
            hrun]
        · refine Or.inr (Or.inr (Or.inr ⟨mod, f, e, w', rfl, hattr, hrun, ?_⟩))
          simp only [handleName, hload, handleLoaded, hattr, handleCall]
          rw [show (⟨args.timeout, args.top_ports⟩ : Options) = optionsOf args from rfl,
            hrun]

/-- Every non-blank requested (trimmed) name has an entry, and that entry
is the outcome of some trace step for that name produced by `handleName`. -/
theorem run_modules_entry (env : Env σ) (w : σ) (target : String)
    (names : List String) (args : Args) (k : String)
    (hk : k ∈ filteredNames names) :
    ∃ s : TraceStep, s ∈ (run_modules env w target names args).trace ∧
      s.name = k ∧ StepProvenance env target args s ∧
      dictGet (run_modules env w target names args).results k = some s.outcome := by
  have htr : k ∈ ((run_modules env w target names args).trace).map TraceStep.name := by
    rw [run_modules_trace_names]
    exact hk
  obtain ⟨s0, hs0, hs0name⟩ := List.mem_map.mp htr
  have hne : (run_modules env w target names args).trace.filter
      (fun s => s.name = k) ≠ [] := by
    intro hnil
    rw [List.filter_eq_nil_iff] at hnil
    exact hnil s0 hs0 (by simp [hs0name])
  have hs : ((run_modules env w target names args).trace.filter
      (fun s => s.name = k)).getLast? = some
      (((run_modules env w target names args).trace.filter
        (fun s => s.name = k)).getLast hne) := List.getLast?_eq_getLast _ hne
  have hsfilter := List.getLast_mem hne
  have hsmem : ((run_modules env w target names args).trace.filter
      (fun s => s.name = k)).getLast hne ∈
      (run_modules env w target names args).trace :=
    List.mem_of_mem_filter hsfilter
  have hsname : (((run_modules env w target names args).trace.filter
      (fun s => s.name = k)).getLast hne).name = k := by
    simpa using List.of_mem_filter hsfilter
  refine ⟨_, hsmem, hsname,
    run_modules_provenance env w target names args _ hsmem, ?_⟩
  rw [run_modules_dictGet]
  unfold lastOutcome
  rw [hs]
  rfl

theorem roundHalfEven_nonneg (x : ℚ) (h : 0 ≤ x) : 0 ≤ roundHalfEven x := by
  unfold roundHalfEven
  have hf : (0:ℤ) ≤ ⌊x⌋ := Int.floor_nonneg.mpr h
  split_ifs <;> omega

theorem round2_nonneg (x : ℚ) (h : 0 ≤ x) : 0 ≤ round2 x := by
  unfold round2
  have h100 : (0:ℚ) ≤ x * 100 := by positivity
  have hr := roundHalfEven_nonneg _ h100
  have : (0:ℚ) ≤ (roundHalfEven (x * 100) : ℚ) := by exact_mod_cast hr
  positivity

theorem argModules_strip (args : Args) :
    ∀ mod ∈ argModules args, pyStrip mod = mod ∧ mod ≠ "" := by
  intro mod hmod
  unfold argModules at hmod
  rw [List.mem_filter] at hmod
  obtain ⟨hm, hne⟩ := hmod
  obtain ⟨raw, _, rfl⟩ := List.mem_map.mp hm
  exact ⟨pyStrip_idempotent raw, by simpa using hne⟩

theorem filteredNames_argModules (args : Args) :
    filteredNames (argModules args) = argModules args := by
  unfold filteredNames
  have h1 : (argModules args).map pyStrip = argModules args := by
    have := List.map_congr_left (l := argModules args) (f := pyStrip) (g := id)
      (fun a ha => (argModules_strip args a ha).1)
    simpa using this
  rw [h1]
  rw [List.filter_eq_self]
  intro a ha
  simpa using (argModules_strip args a ha).2

/-- Witness fixture: a module whose `run` returns a fixed value. -/
def okModuleW : PyModule Unit :=
  ⟨some (Attr.callable (fun _ _ w => (RunResult.ok (Value.str "ok"), w)))⟩

/-- Witness fixture: a module with no `run` attribute. -/
def noRunModuleW : PyModule Unit := ⟨none⟩

/-- Counterexample fixture: a module whose `run` raises an exception whose
`str(e)` is the empty string (as `raise Exception()` does). -/
def emptyExnModuleW : PyModule Unit :=
  ⟨some (Attr.callable (fun _ _ w => (RunResult.exn "", w)))⟩

/-- Witness environment: `dns` imports a working module, `whois` a module
missing `run`, every other path fails to import; the clock reads zero. -/
def envW : Env Unit :=
  ⟨fun path =>
    if path = "modules.dns_lookup" then .ok okModuleW
    else if path = "modules.whois_lookup" then .ok noRunModuleW
    else .error "No module named x",
   fun _ => 0⟩

/-- Counterexample environment: `dns` raises with empty message. -/
def envCE : Env Unit :=
  ⟨fun path =>
    if path = "modules.dns_lookup" then .ok emptyExnModuleW
    else .error "boom",
   fun _ => 0⟩

/-- Witness arguments. -/
def argsW : Args :=
  ⟨"example.com", "dns,whois", 3, none, 50, false, false⟩

/-- Witness main environment. -/
def menvW : MainEnv Unit := ⟨envW, (), fun _ _ => .ok ()⟩

/-- C2: for every input list of requested module-name strings, the results
mapping has exactly one entry per distinct non-blank trimmed name (in first
occurrence order, without duplicates), blanks contribute no entry, a
repeated name keeps a single entry holding the outcome of its
chronologically last handling, and the concrete list
`[" ", " ", "dns", " ", "dns"]` yields exactly the key `"dns"`. -/
theorem c2_one_entry_per_distinct_name (σ : Type) (env : Env σ) (w : σ)
    (target : String) (names : List String) (args : Args) :
    keysOf (run_modules env w target names args).results
      = dedupFirst (filteredNames names)
    ∧ (keysOf (run_modules env w target names args).results).Nodup
    ∧ (∀ k, dictGet (run_modules env w target names args).results k
        = lastOutcome k (run_modules env w target names args).trace)
    ∧ keysOf (run_modules env w target [" ", " ", "dns", " ", "dns"] args).results
        = ["dns"] := by
  refine ⟨run_modules_keys env w target names args, ?_, ?_, ?_⟩
  · rw [run_modules_keys]
    exact nodup_foldl_insertIfAbsent _ [] List.nodup_nil
  · exact run_modules_dictGet env w target names args
  · rw [run_modules_keys]
    decide

/-- C3: every requested non-blank name absent from `AVAILABLE_MODULES`
gets a `Failure` entry whose message names it as unknown, and all other
non-blank requested names still get entries. -/
theorem c3_unknown_module_failure (σ : Type) (env : Env σ) (w : σ)
    (target : String) (names : List String) (args : Args) (name : String)
    (hmem : name ∈ names) (hnb : pyStrip name ≠ "")
    (hunk : registryLookup (pyStrip name) = none) :
    dictGet (run_modules env w target names args).results (pyStrip name)
      = some (.failure ("Unknown module '" ++ pyStrip name ++ "'"))
    ∧ ∀ other ∈ names, pyStrip other ≠ "" →
        ∃ o, dictGet (run_modules env w target names args).results
          (pyStrip other) = some o := by
  have hload : load_module_by_name env (pyStrip name) =
      .error ("Unknown module '" ++ pyStrip name ++ "'") := by
    unfold load_module_by_name
    rw [hunk]
  have hfil : pyStrip name ∈ filteredNames names := by
    unfold filteredNames
    rw [List.mem_filter]
    exact ⟨List.mem_map_of_mem pyStrip hmem, by simpa using hnb⟩
  obtain ⟨s, hsmem, hsname, ⟨w', t', hprov⟩, hget⟩ :=
    run_modules_entry env w target names args (pyStrip name) hfil
  constructor
  · rcases handleName_cases env target args (pyStrip name) w' t' with
      ⟨e, he, hh⟩ | ⟨mod, hm, _, _⟩ | ⟨mod, f, res, w2, hm, _, _, _⟩ |
      ⟨mod, f, e, w2, hm, _, _, _⟩
    · have hes : e = "Unknown module '" ++ pyStrip name ++ "'" := by
        rw [hload] at he
        exact (Except.error.inj he).symm
      subst hes
      rw [hsname] at hprov
      rw [hprov] at hh
      rw [hget, hh]
    · rw [hload] at hm; cases hm
    · rw [hload] at hm; cases hm
    · rw [hload] at hm; cases hm
  · intro other homem honb
    apply dictGet_isSome_of_mem
    rw [run_modules_mem_keys]
    unfold filteredNames
    rw [List.mem_filter]
    exact ⟨List.mem_map_of_mem pyStrip homem, by simpa using honb⟩

/-- C3 witness: requesting the unknown name `nope` next to `dns`. -/
theorem c3_unknown_module_failure_witness :
    dictGet (run_modules envW () "example.com" ["nope", "dns"] argsW).results
      (pyStrip "nope")
      = some (.failure ("Unknown module '" ++ pyStrip "nope" ++ "'"))
    ∧ ∀ other ∈ ["nope", "dns"], pyStrip other ≠ "" →
        ∃ o, dictGet (run_modules envW () "example.com" ["nope", "dns"] argsW).results
          (pyStrip other) = some o :=
  c3_unknown_module_failure Unit envW () "example.com" ["nope", "dns"] argsW
    "nope" (by decide) (by decide) (by decide)

/-- C4: a requested module that loads but whose capability has no callable
`run` gets exactly the fixed contract-violation message, and the dispatcher
continues so every other non-blank requested name still gets an entry and
is still handled. -/
theorem c4_missing_run_contract (σ : Type) (env : Env σ) (w : σ)
    (target : String) (names : List String) (args : Args) (name : String)
    (hmem : name ∈ names) (hnb : pyStrip name ≠ "")
    (mod : PyModule σ)
    (hload : load_module_by_name env (pyStrip name) = .ok mod)
    (hattr : ∀ f, mod.runAttr ≠ some (.callable f)) :
    dictGet (run_modules env w target names args).results (pyStrip name)
      = some (.failure "module missing run(target, options) function")
    ∧ ∀ other ∈ names, pyStrip other ≠ "" →
        (pyStrip other ∈ ((run_modules env w target names args).trace).map
          TraceStep.name
        ∧ ∃ o, dictGet (run_modules env w target names args).results
            (pyStrip other) = some o) := by
  have hfil : pyStrip name ∈ filteredNames names := by
    unfold filteredNames
    rw [List.mem_filter]
    exact ⟨List.mem_map_of_mem pyStrip hmem, by simpa using hnb⟩
  obtain ⟨s, hsmem, hsname, ⟨w', t', hprov⟩, hget⟩ :=
    run_modules_entry env w target names args (pyStrip name) hfil
  constructor
  · rcases handleName_cases env target args (pyStrip name) w' t' with
      ⟨e, he, hh⟩ | ⟨mod2, hm, _, hh⟩ | ⟨mod2, f, res, w2, hm, hA, _, _⟩ |
      ⟨mod2, f, e, w2, hm, hA, _, _⟩
    · rw [hload] at he; cases he
    · rw [hsname] at hprov
      rw [hprov] at hh
      rw [hget, hh]
    · rw [hload] at hm
      exact absurd hA (by rw [← Except.ok.inj hm]; exact hattr f)
    · rw [hload] at hm
      exact absurd hA (by rw [← Except.ok.inj hm]; exact hattr f)
  · intro other homem honb
    have hofil : pyStrip other ∈ filteredNames names := by
      unfold filteredNames
      rw [List.mem_filter]
      exact ⟨List.mem_map_of_mem pyStrip homem, by simpa using honb⟩
    constructor
    · rw [run_modules_trace_names]
      exact hofil
    · apply dictGet_isSome_of_mem
      rw [run_modules_mem_keys]
      exact hofil

/-- C4 witness: `whois` loads a module with no `run`; `dns` still runs. -/
theorem c4_missing_run_contract_witness :
    dictGet (run_modules envW () "example.com" ["whois", "dns"] argsW).results
      (pyStrip "whois")
      = some (.failure "module missing run(target, options) function")
    ∧ ∀ other ∈ ["whois", "dns"], pyStrip other ≠ "" →
        (pyStrip other ∈
          ((run_modules envW () "example.com" ["whois", "dns"] argsW).trace).map
            TraceStep.name
        ∧ ∃ o, dictGet (run_modules envW () "example.com" ["whois", "dns"] argsW).results
            (pyStrip other) = some o) :=
  c4_missing_run_contract Unit envW () "example.com" ["whois", "dns"] argsW
    "whois" (by decide) (by decide) noRunModuleW rfl
    (fun f hf => Option.noConfusion (show (none : Option (Attr Unit)) = some (.callable f) from hf))

/-- C10: every module name iterated by the console rendering loop is a key
of the results mapping, so the `\x7b"error": "no result"\x7d` fallback
default of line 110 is never used. -/
theorem c10_rendered_names_are_keys (σ : Type) (menv : MainEnv σ)
    (args : Args) (mod : String) (hmod : mod ∈ argModules args) :
    ∃ o, dictGet (mainResults menv args) mod = some o := by
  unfold mainResults
  apply dictGet_isSome_of_mem
  rw [run_modules_mem_keys, filteredNames_argModules]
  exact hmod

/-- C10 witness. -/
theorem c10_rendered_names_are_keys_witness :
    ∃ o, dictGet (mainResults menvW argsW) "dns" = some o :=
  c10_rendered_names_are_keys Unit menvW argsW "dns" (by decide)

/-- C7: every `run` invocation of one run receives the options record
built from the run configuration: the same timeout and the same top_ports
for every invocation (each invocation gets a fresh record built from
`args`, so no module can affect what a later invocation receives). -/
theorem c7_uniform_options (σ : Type) (env : Env σ) (w : σ)
    (target : String) (names : List String) (args : Args) (s : TraceStep)
    (hs : s ∈ (run_modules env w target names args).trace)
    (opts : Options) (t : ℕ) (r : RunResult)
    (hact : s.action = .ran opts t r) :
    opts = optionsOf args := by
  obtain ⟨w', t', hprov⟩ := run_modules_provenance env w target names args s hs
  rcases handleName_cases env target args s.name w' t' with
    ⟨e, he, hh⟩ | ⟨mod, hm, _, hh⟩ | ⟨mod, f, res, w2, hm, hA, hr, hh⟩ |
    ⟨mod, f, e, w2, hm, hA, hr, hh⟩ <;> rw [hprov] at hh
  · rw [hh] at hact
    cases hact
  · rw [hh] at hact
    cases hact
  · rw [hh] at hact
    exact (StepAction.ran.inj hact).1.symm
  · rw [hh] at hact
    exact (StepAction.ran.inj hact).1.symm

/-- The trace step of the single `dns` run in the witness environment. -/
def stepDnsW : TraceStep :=
  ⟨"dns", .ran (optionsOf argsW) 0 (.ok (Value.str "ok")),
    .success (round2 ((0:ℚ) - 0)) (Value.str "ok")⟩

theorem trace_envW_dns :
    (run_modules envW () "example.com" ["dns"] argsW).trace = [stepDnsW] := rfl

/-- C7 witness: the one `run` invocation of a `dns`-only request received
exactly the configured options. -/
theorem c7_uniform_options_witness :
    stepDnsW.action = .ran (optionsOf argsW) 0 (.ok (Value.str "ok")) ∧
    optionsOf argsW = optionsOf argsW :=
  ⟨rfl, c7_uniform_options Unit envW () "example.com" ["dns"] argsW stepDnsW
    (by rw [trace_envW_dns]; exact List.mem_singleton_self _)
    (optionsOf argsW) 0 (.ok (Value.str "ok")) rfl⟩

theorem run_modules_entry_rev (env : Env σ) (w : σ) (target : String)
    (names : List String) (args : Args) (k : String) (o : Outcome)
    (h : dictGet (run_modules env w target names args).results k = some o) :
    ∃ s : TraceStep, s ∈ (run_modules env w target names args).trace ∧
      s.name = k ∧ StepProvenance env target args s ∧ s.outcome = o := by
  rw [run_modules_dictGet] at h
  unfold lastOutcome at h
  rcases hl : ((run_modules env w target names args).trace.filter
      (fun s => s.name = k)).getLast? with _ | s
  · rw [hl] at h; cases h
  · rw [hl] at h
    have ho : s.outcome = o := by simpa using h
    have hsf : s ∈ (run_modules env w target names args).trace.filter
        (fun s => s.name = k) := List.mem_of_mem_getLast? hl
    have hmem : s ∈ (run_modules env w target names args).trace :=
      List.mem_of_mem_filter hsf
    have hname : s.name = k := by simpa using List.of_mem_filter hsf
    exact ⟨s, hmem, hname,
      run_modules_provenance env w target names args s hmem, ho⟩

/-- C5: under a monotone wall clock, every success entry carries a
non-negative elapsed value, and that value is the rounding of the
difference of the two clock readings taken immediately around the `run`
call (ticks `t` and `t + 1`; the load step reads no clock, so load time is
excluded; the aggregate stores the rounded value). -/
theorem c5_elapsed_nonneg_run_only (σ : Type) (env : Env σ) (w : σ)
    (target : String) (names : List String) (args : Args)
    (hclock : ∀ i j : ℕ, i ≤ j → env.clock i ≤ env.clock j)
    (name : String) (el : ℚ) (d : Value)
    (hentry : dictGet (run_modules env w target names args).results name
      = some (.success el d)) :
    0 ≤ el ∧ ∃ t, el = round2 (env.clock (t + 1) - env.clock t) ∧
      (⟨name, .ran (optionsOf args) t (.ok d), .success el d⟩ : TraceStep) ∈
        (run_modules env w target names args).trace := by
  obtain ⟨s, hmem, hname, ⟨w', t', hprov⟩, ho⟩ :=
    run_modules_entry_rev env w target names args name (.success el d) hentry
  rcases handleName_cases env target args s.name w' t' with
    ⟨e, he, hh⟩ | ⟨mod, hm, _, hh⟩ | ⟨mod, f, res, w2, hm, hA, hr, hh⟩ |
    ⟨mod, f, e, w2, hm, hA, hr, hh⟩ <;> rw [hprov] at hh
  · rw [hh] at ho; simp at ho
  · rw [hh] at ho; simp at ho
  · have ho2 : Outcome.success (round2 (env.clock (t' + 1) - env.clock t')) res
        = Outcome.success el d := by
      rw [hh] at ho
      exact ho
    obtain ⟨hel, hd⟩ := Outcome.success.inj ho2
    have hle : env.clock t' ≤ env.clock (t' + 1) := hclock t' (t' + 1) (by omega)
    constructor
    · rw [← hel]
      exact round2_nonneg _ (by linarith)
    · refine ⟨t', hel.symm, ?_⟩
      have hs2 : s = ⟨name, .ran (optionsOf args) t' (.ok d), .success el d⟩ := by
        rw [hh, hname, hel, hd]
      rw [← hs2]
      exact hmem
  · rw [hh] at ho; simp at ho

/-- C5 witness: the `dns` run in the witness environment. -/
theorem c5_elapsed_nonneg_run_only_witness :
    0 ≤ round2 ((0:ℚ) - 0) ∧
    ∃ t, round2 ((0:ℚ) - 0) = round2 (envW.clock (t + 1) - envW.clock t) ∧
      (⟨"dns", .ran (optionsOf argsW) t (.ok (Value.str "ok")),
          .success (round2 ((0:ℚ) - 0)) (Value.str "ok")⟩ : TraceStep) ∈
        (run_modules envW () "example.com" ["dns"] argsW).trace :=
  c5_elapsed_nonneg_run_only Unit envW () "example.com" ["dns"] argsW
    (fun _ _ _ => le_refl 0) "dns" (round2 ((0:ℚ) - 0)) (Value.str "ok") rfl

theorem sectionModName_renderEntry (res : List (String × Outcome))
    (mod : String) : sectionModName (renderEntry res mod) = mod := by
  unfold renderEntry
  cases h : (dictGet res mod).getD (Outcome.failure "no result") with
  | success el d => rfl
  | failure e => rfl

/-- C6: modules are handled strictly in request order (the execution trace
lists exactly the trimmed non-blank requested names, in order), and the
console rendering pass iterates the requested modules in request order,
producing for each one either an error section or a success section. -/
theorem c6_order_preservation :
    (∀ (σ : Type) (env : Env σ) (w : σ) (target : String)
      (names : List String) (args : Args),
      ((run_modules env w target names args).trace).map TraceStep.name
        = filteredNames names)
    ∧ (∀ (σ : Type) (menv : MainEnv σ) (args : Args),
        (mainSections menv args).map sectionModName = argModules args
        ∧ ∀ s ∈ mainSections menv args,
            (∃ m e, s = RSection.err m e) ∨ (∃ m el d, s = RSection.ok m el d)) := by
  constructor
  · intro σ env w target names args
    exact run_modules_trace_names env w target names args
  · intro σ menv args
    constructor
    · unfold mainSections
      rw [List.map_map]
      have : sectionModName ∘ renderEntry (mainResults menv args) = id := by
        funext mod
        exact sectionModName_renderEntry _ mod
      rw [this, List.map_id]
    · intro s _
      cases s with
      | err m e => exact Or.inl ⟨m, e, rfl⟩
      | ok m el d => exact Or.inr ⟨m, el, d, rfl⟩

/-- C9: the process always exits with code 0; the event stream is the
header, then every console section, then the persistence events; no error
line is emitted before or among the rendering; an error line can only be
the report-write failure message, emitted after all rendering; and the
rendered sections do not depend on the writer, so a failed write does not
change what was displayed. -/
theorem c9_lenient_exit (σ : Type) (menv : MainEnv σ) (args : Args) :
    (mainRun menv args).exitCode = 0
    ∧ (mainRun menv args).events
        = mainHeader args ++ (mainSections menv args).map OutEv.sec ++
            mainTail menv args
    ∧ (∀ e, OutEv.errLine e ∈
        mainHeader args ++ (mainSections menv args).map OutEv.sec → False)
    ∧ (∀ e, OutEv.errLine e ∈ mainTail menv args →
        ∃ p we, args.output = some p
          ∧ menv.write p (mainDoc menv args) = .error we
          ∧ e = "Failed to write output file: " ++ we)
    ∧ (∀ wr : String → String → Except String Unit,
        mainSections ⟨menv.env, menv.world, wr⟩ args = mainSections menv args) := by
  refine ⟨rfl, rfl, ?_, ?_, fun wr => rfl⟩
  · intro e he
    rcases List.mem_append.mp he with h | h
    · by_cases hq : args.quiet <;> simp [mainHeader, hq] at h
    · obtain ⟨r, _, hr⟩ := List.mem_map.mp h
      exact OutEv.noConfusion hr
  · intro e he
    unfold mainTail at he
    cases ho : args.output with
    | none => rw [ho] at he; simp at he
    | some p =>
      rw [ho] at he
      dsimp only at he
      cases hw : menv.write p (mainDoc menv args) with
      | ok u => rw [hw] at he; simp at he
      | error we =>
        rw [hw] at he
        simp only [List.mem_singleton] at he
        have : e = "Failed to write output file: " ++ we := by
          exact OutEv.errLine.inj he
        exact ⟨p, we, rfl, hw, this⟩

/-- A module malfunction as the failure-isolation property enumerates
them: the load raises, the loaded capability has no callable `run`, or the
`run` call raises (whatever the module-world state). -/
def Malfunctions (env : Env σ) (target : String) (args : Args)
    (name : String) : Prop :=
  (∃ e, load_module_by_name env name = .error e)
  ∨ (∃ mod, load_module_by_name env name = .ok mod ∧
      ∀ f, mod.runAttr ≠ some (.callable f))
  ∨ (∃ mod f, load_module_by_name env name = .ok mod ∧
      mod.runAttr = some (.callable f) ∧
      ∀ w', ∃ e w'', f target (optionsOf args) w' = (.exn e, w''))

/-- C1 (amended): when a requested module malfunctions, the whole run
still completes (the dispatcher is a total function), that module's entry
is a `Failure` whose message is derived from the cause — the load error
text, the fixed missing-`run` message, or the stringified run exception,
which may be empty when the exception's string form is empty — and every
other non-blank requested module is still dispatched and gets its own
entry. -/
theorem c1_failure_isolation (σ : Type) (env : Env σ) (w : σ)
    (target : String) (names : List String) (args : Args) (name : String)
    (hmem : name ∈ names) (hnb : pyStrip name ≠ "")
    (hmal : Malfunctions env target args (pyStrip name)) :
    (∃ msg, dictGet (run_modules env w target names args).results
        (pyStrip name) = some (.failure msg) ∧
      ((∃ e, load_module_by_name env (pyStrip name) = .error e ∧ msg = e)
       ∨ msg = "module missing run(target, options) function"
       ∨ (∃ f w' w'',
            (∃ mod, load_module_by_name env (pyStrip name) = .ok mod ∧
              mod.runAttr = some (.callable f))
            ∧ f target (optionsOf args) w' = (.exn msg, w''))))
    ∧ (∀ other ∈ names, pyStrip other ≠ "" →
        pyStrip other ∈ ((run_modules env w target names args).trace).map
          TraceStep.name
        ∧ ∃ o, dictGet (run_modules env w target names args).results
            (pyStrip other) = some o) := by
  have hfil : pyStrip name ∈ filteredNames names := by
    unfold filteredNames
    rw [List.mem_filter]
    exact ⟨List.mem_map_of_mem pyStrip hmem, by simpa using hnb⟩
  obtain ⟨s, hsmem, hsname, ⟨w', t', hprov⟩, hget⟩ :=
    run_modules_entry env w target names args (pyStrip name) hfil
  rw [hsname] at hprov
  constructor
  · rcases handleName_cases env target args (pyStrip name) w' t' with
      ⟨e, he, hh⟩ | ⟨mod, hm, hnc, hh⟩ | ⟨mod, f, res, w2, hm, hA, hr, hh⟩ |
      ⟨mod, f, e, w2, hm, hA, hr, hh⟩ <;> rw [hprov] at hh
    · refine ⟨e, ?_, Or.inl ⟨e, he, rfl⟩⟩
      rw [hget, hh]
    · refine ⟨"module missing run(target, options) function", ?_,
        Or.inr (Or.inl rfl)⟩
      rw [hget, hh]
    · exfalso
      rcases hmal with ⟨e0, he0⟩ | ⟨mod0, hm0, hnc0⟩ | ⟨mod0, f0, hm0, hA0, hx0⟩
      · rw [hm] at he0; cases he0
      · rw [hm] at hm0
        exact hnc0 f (by rw [← Except.ok.inj hm0]; exact hA)
      · rw [hm] at hm0
        have hmodeq : mod0 = mod := (Except.ok.inj hm0).symm
        subst hmodeq
        rw [hA] at hA0
        have hfeq : f0 = f := (Attr.callable.inj (Option.some.inj hA0)).symm
        subst hfeq
        obtain ⟨e1, w1, hx⟩ := hx0 w'
        rw [hr] at hx
        have := (Prod.mk.inj hx).1
        cases this
    · refine ⟨e, ?_, Or.inr (Or.inr ⟨f, w', w2, ⟨mod, hm, hA⟩, hr⟩)⟩
      rw [hget, hh]
  · intro other homem honb
    have hofil : pyStrip other ∈ filteredNames names := by
      unfold filteredNames
      rw [List.mem_filter]
      exact ⟨List.mem_map_of_mem pyStrip homem, by simpa using honb⟩
    refine ⟨?_, ?_⟩
    · rw [run_modules_trace_names]
      exact hofil
    · apply dictGet_isSome_of_mem
      rw [run_modules_mem_keys]
      exact hofil

/-- C1 counterexample to the claim as stated: a module whose `run` raises
an exception with empty string form (Python `raise Exception()`) yields a
`Failure` entry whose message is empty, so the entry does not carry a
non-empty message. -/
theorem c1_empty_message_counterexample :
    dictGet (run_modules envCE () "example.com" ["dns"] argsW).results "dns"
      = some (.failure "")
    ∧ ¬ ∃ msg, dictGet (run_modules envCE () "example.com" ["dns"] argsW).results
        "dns" = some (.failure msg) ∧ msg ≠ "" := by
  have h : dictGet (run_modules envCE () "example.com" ["dns"] argsW).results "dns"
      = some (.failure "") := rfl
  refine ⟨h, ?_⟩
  rintro ⟨msg, hmsg, hne⟩
  exact hne ((Outcome.failure.inj (Option.some.inj (h.symm.trans hmsg))).symm)

/-- C1 witness: `headers` fails to import while `dns` still runs. -/
theorem c1_failure_isolation_witness :
    (∃ msg, dictGet (run_modules envW () "example.com" ["headers", "dns"] argsW).results
        (pyStrip "headers") = some (.failure msg) ∧
      ((∃ e, load_module_by_name envW (pyStrip "headers") = .error e ∧ msg = e)
       ∨ msg = "module missing run(target, options) function"
       ∨ (∃ f w' w'',
            (∃ mod, load_module_by_name envW (pyStrip "headers") = .ok mod ∧
              mod.runAttr = some (.callable f))
            ∧ f "example.com" (optionsOf argsW) w' = (.exn msg, w''))))
    ∧ (∀ other ∈ ["headers", "dns"], pyStrip other ≠ "" →
        pyStrip other ∈
          ((run_modules envW () "example.com" ["headers", "dns"] argsW).trace).map
            TraceStep.name
        ∧ ∃ o, dictGet (run_modules envW () "example.com" ["headers", "dns"] argsW).results
            (pyStrip other) = some o) :=
  c1_failure_isolation Unit envW () "example.com" ["headers", "dns"] argsW
    "headers" (by decide) (by decide)
    (Or.inl ⟨"Failed to import module 'headers' (modules.headers): No module named x",
      rfl⟩)

/-- JSON whitespace accepted between tokens by `json.load`. -/
def wsChar (c : Char) : Bool :=
  c = ' ' || c = '\t' || c = '\n' || c = '\r'

/-- Skip inter-token whitespace. -/
def skipWs (cs : List Char) : List Char := cs.dropWhile wsChar

/-- Value of one hexadecimal digit. -/
def hexVal (c : Char) : Option ℕ :=
  if '0' ≤ c ∧ c ≤ '9' then some (c.toNat - 48)
  else if 'a' ≤ c ∧ c ≤ 'f' then some (c.toNat - 87)
  else if 'A' ≤ c ∧ c ≤ 'F' then some (c.toNat - 55)
  else none

/-- Decode a JSON string body after the opening quote: plain characters
until the closing quote, a backslash followed by a short escape, or a
`u` escape with surrogate pairs recombined.  One unit of fuel is spent per
decoded character; callers pass the input length plus one. -/
def parseJStringAux : ℕ → List Char → List Char → Option (String × List Char)
  | 0, _, _ => none
  | fuel + 1, acc, cs =>
    match cs with
    | [] => none
    | c :: rest =>
      if c = '"' then some (String.mk acc.reverse, rest)
      else if c = '\\' then
        match rest with
        | [] => none
        | e :: r =>
          if e = 'n' then parseJStringAux fuel ('\n' :: acc) r
          else if e = 't' then parseJStringAux fuel ('\t' :: acc) r
          else if e = 'r' then parseJStringAux fuel ('\r' :: acc) r
          else if e = 'b' then parseJStringAux fuel ('\x08' :: acc) r
          else if e = 'f' then parseJStringAux fuel ('\x0c' :: acc) r
          else if e = '/' then parseJStringAux fuel ('/' :: acc) r
          else if e = '"' then parseJStringAux fuel ('"' :: acc) r
          else if e = '\\' then parseJStringAux fuel ('\\' :: acc) r
          else if e = 'u' then
            match r with
            | d1 :: d2 :: d3 :: d4 :: r2 =>
              (match hexVal d1, hexVal d2, hexVal d3, hexVal d4 with
               | some a, some b, some cc, some d =>
                 let n := a * 4096 + b * 256 + cc * 16 + d
                 if 0xd800 ≤ n ∧ n ≤ 0xdbff then
                   (match r2 with
                    | b1 :: b2 :: g1 :: g2 :: g3 :: g4 :: r3 =>
                      if b1 = '\\' ∧ b2 = 'u' then
                        (match hexVal g1, hexVal g2, hexVal g3, hexVal g4 with
                         | some a2, some b2', some c2, some e2 =>
                           let mm := a2 * 4096 + b2' * 256 + c2 * 16 + e2
                           if 0xdc00 ≤ mm ∧ mm ≤ 0xdfff then
                             parseJStringAux fuel
                               (Char.ofNat
                                 (0x10000 + (n - 0xd800) * 1024 + (mm - 0xdc00)) :: acc)
                               r3
                           else none
                         | _, _, _, _ => none)
                      else none
                    | _ => none)
                 else if 0xdc00 ≤ n ∧ n ≤ 0xdfff then none
                 else parseJStringAux fuel (Char.ofNat n :: acc) r2
               | _, _, _, _ => none)
            | _ => none
          else none
      else parseJStringAux fuel (c :: acc) rest

/-- Value of a most-significant-first digit string. -/
def digitsVal (ds : List Char) : ℕ :=
  ds.foldl (fun a c => a * 10 + (c.toNat - 48)) 0

/-- Parse a JSON number of the shape the printer emits: optional minus,
integer digits, optional fraction. -/
def parseNumber (cs : List Char) : Option (Value × List Char) :=
  let neg : Bool := cs.head? = some '-'
  let cs1 := if cs.head? = some '-' then cs.tail else cs
  let ds := cs1.takeWhile Char.isDigit
  let cs2 := cs1.dropWhile Char.isDigit
  if ds.isEmpty then none
  else if cs2.head? = some '.' then
    let cs3 := cs2.tail
    let fs := cs3.takeWhile Char.isDigit
    let cs4 := cs3.dropWhile Char.isDigit
    if fs.isEmpty then none
    else
      let a : ℤ := ((digitsVal ds * 10 ^ fs.length + digitsVal fs : ℕ) : ℤ)
      some (.num (if neg then -a else a) fs.length, cs4)
  else
    let a : ℤ := ((digitsVal ds : ℕ) : ℤ)
    some (.num (if neg then -a else a) 0, cs2)

mutual

/-- Recursive-descent JSON reader (`json.load`), restricted to the
constructs the printer emits; `fuel` decreases on every recursive call. -/
def parseValue : ℕ → List Char → Option (Value × List Char)
  | 0, _ => none
  | fuel + 1, cs =>
    match skipWs cs with
    | [] => none
    | c :: rest =>
      if c = 'n' then
        match rest with
        | 'u' :: 'l' :: 'l' :: r => some (.null, r)
        | _ => none
      else if c = 't' then
        match rest with
        | 'r' :: 'u' :: 'e' :: r => some (.bool true, r)
        | _ => none
      else if c = 'f' then
        match rest with
        | 'a' :: 'l' :: 's' :: 'e' :: r => some (.bool false, r)
        | _ => none
      else if c = '"' then
        match parseJStringAux (rest.length + 1) [] rest with
        | some (s, r) => some (.str s, r)
        | none => none
      else if c = '[' then
        if (skipWs rest).head? = some ']' then some (.arr [], (skipWs rest).tail)
        else
          match parseElems fuel rest with
          | some (xs, r) => some (.arr xs, r)
          | none => none
      else if c = '{' then
        if (skipWs rest).head? = some '}' then some (.obj [], (skipWs rest).tail)
        else
          match parseFields fuel rest with
          | some (fs, r) => some (.obj fs, r)
          | none => none
      else if c = '-' ∨ c.isDigit then parseNumber (c :: rest)
      else none

/-- The items of a non-empty array, up to and including the closing
bracket. -/
def parseElems : ℕ → List Char → Option (List Value × List Char)
  | 0, _ => none
  | fuel + 1, cs =>
    match parseValue fuel cs with
    | none => none
    | some (v, r1) =>
      match skipWs r1 with
      | ',' :: r2 =>
        (match parseElems fuel r2 with
         | some (vs, r3) => some (v :: vs, r3)
         | none => none)
      | ']' :: r2 => some ([v], r2)
      | _ => none

/-- The fields of a non-empty object, up to and including the closing
brace. -/
def parseFields : ℕ → List Char → Option (List (String × Value) × List Char)
  | 0, _ => none
  | fuel + 1, cs =>
    match skipWs cs with
    | '"' :: r0 =>
      (match parseJStringAux (r0.length + 1) [] r0 with
       | none => none
       | some (k, r1) =>
         match skipWs r1 with
         | ':' :: r2 =>
           (match parseValue fuel r2 with
            | none => none
            | some (v, r3) =>
              match skipWs r3 with
              | ',' :: r4 =>
                (match parseFields fuel r4 with
                 | some (fs, r5) => some ((k, v) :: fs, r5)
                 | none => none)
              | '}' :: r4 => some ([(k, v)], r4)
              | _ => none)
         | _ => none)
    | _ => none

end

/-- Reload a serialized document (`json.load`): one value, then only
whitespace. -/
def jsonParse (s : String) : Option Value :=
  match parseValue (s.data.length + 1) s.data with
  | some (v, rest) => if (skipWs rest).isEmpty then some v else none
  | none => none

mutual

/-- Fuel needed by `parseValue`. -/
def sizeV : Value → ℕ
  | .null => 1
  | .bool _ => 1
  | .num _ _ => 1
  | .str _ => 1
  | .arr l => 1 + sizeVL l
  | .obj fs => 1 + sizeVF fs

/-- Fuel needed by `parseElems`. -/
def sizeVL : List Value → ℕ
  | [] => 0
  | x :: xs => 1 + sizeV x + sizeVL xs

/-- Fuel needed by `parseFields`. -/
def sizeVF : List (String × Value) → ℕ
  | [] => 0
  | (_, v) :: fs => 1 + sizeV v + sizeVF fs

end

/-- All characters are JSON whitespace. -/
def AllWs (l : List Char) : Prop := ∀ c ∈ l, wsChar c = true

/-- What may follow a printed value inside a document: nothing, a comma,
or the newline before the enclosing close bracket. -/
def TailOk (rest : List Char) : Prop :=
  ∀ c, rest.head? = some c → c = ',' ∨ c = '\n'

theorem allWs_nil : AllWs [] := by intro c hc; cases hc

theorem allWs_spacesList (n : ℕ) : AllWs (spacesList n) := by
  intro c hc
  unfold spacesList at hc
  rw [List.eq_of_mem_replicate hc]
  decide

theorem allWs_append {l1 l2 : List Char} (h1 : AllWs l1) (h2 : AllWs l2) :
    AllWs (l1 ++ l2) := by
  intro c hc
  rcases List.mem_append.mp hc with h | h
  · exact h1 c h
  · exact h2 c h

theorem allWs_cons {c : Char} {l : List Char} (hc : wsChar c = true)
    (h : AllWs l) : AllWs (c :: l) := by
  intro d hd
  rcases List.mem_cons.mp hd with rfl | hd
  · exact hc
  · exact h d hd

theorem skipWs_append_of_allWs {pre : List Char} (cs : List Char)
    (h : AllWs pre) : skipWs (pre ++ cs) = skipWs cs := by
  induction pre with
  | nil => rfl
  | cons c l ih =>
    have hc : wsChar c = true := h c (by simp)
    have hl : AllWs l := fun d hd => h d (by simp [hd])
    simp only [List.cons_append, skipWs, List.dropWhile_cons, hc, if_true]
    exact ih hl

theorem skipWs_cons_of_not_ws {c : Char} (cs : List Char)
    (h : wsChar c = false) : skipWs (c :: cs) = c :: cs := by
  simp only [skipWs, List.dropWhile_cons, h]
  simp

theorem takeWhile_append_all {p : Char → Bool} (ds rest : List Char)
    (hds : ∀ c ∈ ds, p c = true)
    (hrest : ∀ c, rest.head? = some c → p c = false) :
    (ds ++ rest).takeWhile p = ds ∧ (ds ++ rest).dropWhile p = rest := by
  induction ds with
  | nil =>
    simp only [List.nil_append]
    cases rest with
    | nil => simp
    | cons c r =>
      have := hrest c rfl
      simp [List.takeWhile_cons, List.dropWhile_cons, this]
  | cons c l ih =>
    have hc : p c = true := hds c (by simp)
    have hl : ∀ d ∈ l, p d = true := fun d hd => hds d (by simp [hd])
    obtain ⟨h1, h2⟩ := ih hl
    simp [List.takeWhile_cons, List.dropWhile_cons, hc, h1, h2]

theorem digitChar_isDigit : ∀ d, d < 10 → (digitChar d).isDigit = true := by
  decide

theorem digitChar_toNat : ∀ d, d < 10 → (digitChar d).toNat = 48 + d := by
  decide

theorem natChars_ne_nil (n : ℕ) : natChars n ≠ [] := by
  unfold natChars
  by_cases h : n = 0
  · simp [h]
  · simp only [h, if_false]
    intro habs
    rw [List.reverse_eq_nil_iff, List.map_eq_nil_iff] at habs
    exact h (Nat.digits_eq_nil_iff_eq_zero.mp habs)

theorem natChars_all_digits (n : ℕ) : ∀ c ∈ natChars n, c.isDigit = true := by
  intro c hc
  unfold natChars at hc
  by_cases h : n = 0
  · rw [h] at hc
    simp at hc
    rw [hc]
    decide
  · simp only [h, if_false, List.mem_reverse, List.mem_map] at hc
    obtain ⟨d, hd, rfl⟩ := hc
    exact digitChar_isDigit d (Nat.digits_lt_base (by norm_num) hd)

theorem digitsVal_digits_rev (ds : List ℕ) (h : ∀ d ∈ ds, d < 10) :
    digitsVal ((ds.map digitChar).reverse) = Nat.ofDigits 10 ds := by
  induction ds with
  | nil => rfl
  | cons d l ih =>
    have hd : d < 10 := h d (by simp)
    have hl : ∀ x ∈ l, x < 10 := fun x hx => h x (by simp [hx])
    simp only [List.map_cons, List.reverse_cons, digitsVal, List.foldl_append,
      List.foldl_cons, List.foldl_nil]
    rw [show List.foldl (fun a c => a * 10 + (c.toNat - 48)) 0
        ((l.map digitChar).reverse) = digitsVal ((l.map digitChar).reverse) from rfl]
    rw [ih hl, digitChar_toNat d hd, Nat.ofDigits_cons]
    omega

theorem digitsVal_natChars (n : ℕ) : digitsVal (natChars n) = n := by
  unfold natChars
  by_cases h : n = 0
  · simp [h, digitsVal]
  · simp only [h, if_false]
    rw [digitsVal_digits_rev _ (fun d hd => Nat.digits_lt_base (by norm_num) hd)]
    exact Nat.ofDigits_digits 10 n

theorem natChars_length_le (n e : ℕ) (he : 0 < e) (h : n < 10 ^ e) :
    (natChars n).length ≤ e := by
  unfold natChars
  by_cases h0 : n = 0
  · simp [h0]
    omega
  · simp only [h0, if_false, List.length_reverse, List.length_map]
    rw [Nat.digits_len 10 n (by norm_num) h0]
    have := Nat.log_lt_of_lt_pow h0 h
    omega

theorem digitsVal_padZeros (e : ℕ) (ds : List Char) :
    digitsVal (padZeros e ds) = digitsVal ds := by
  unfold padZeros digitsVal
  rw [List.foldl_append]
  congr 1
  generalize e - ds.length = k
  induction k with
  | zero => rfl
  | succ k ih => simpa [List.replicate_succ] using ih

theorem padZeros_all_digits (e : ℕ) (ds : List Char)
    (h : ∀ c ∈ ds, c.isDigit = true) :
    ∀ c ∈ padZeros e ds, c.isDigit = true := by
  intro c hc
  unfold padZeros at hc
  rcases List.mem_append.mp hc with h1 | h1
  · rw [List.eq_of_mem_replicate h1]
    decide
  · exact h c h1

theorem padZeros_length (e : ℕ) (ds : List Char) (h : ds.length ≤ e) :
    (padZeros e ds).length = e := by
  unfold padZeros
  rw [List.length_append, List.length_replicate]
  omega

theorem tailOk_not_digit {rest : List Char} (h : TailOk rest) :
    ∀ c, rest.head? = some c → Char.isDigit c = false := by
  intro c hc
  rcases h c hc with rfl | rfl <;> decide

theorem tailOk_not_dot {rest : List Char} (h : TailOk rest) :
    ¬ rest.head? = some '.' := by
  intro hc
  rcases h '.' hc with h1 | h1 <;> cases h1

theorem natChars_head_digit (n : ℕ) :
    ∃ c tl, natChars n = c :: tl ∧ c.isDigit = true := by
  rcases hn : natChars n with _ | ⟨c, tl⟩
  · exact absurd hn (natChars_ne_nil n)
  · exact ⟨c, tl, rfl, natChars_all_digits n c (by rw [hn]; simp)⟩

theorem parseNumber_print (m : ℤ) (e : ℕ) (rest : List Char) (h : TailOk rest) :
    parseNumber (printNum m e ++ rest) = some (.num m e, rest) := by
  have hnd := tailOk_not_digit h
  have hdot := tailOk_not_dot h
  by_cases he : e = 0
  · subst he
    obtain ⟨htake, hdrop⟩ := takeWhile_append_all (natChars m.natAbs) rest
      (natChars_all_digits _) hnd
    have hne : (natChars m.natAbs).isEmpty = false := by
      simpa [List.isEmpty_iff] using natChars_ne_nil m.natAbs
    by_cases hm : m < 0
    · have hp : printNum m 0 ++ rest = '-' :: (natChars m.natAbs ++ rest) := by
        unfold printNum
        simp [hm]
      rw [hp]
      unfold parseNumber
      simp only [List.head?_cons, List.tail_cons]
      simp [htake, hdrop, hne, hdot, digitsVal_natChars, abs_of_neg hm]
    · obtain ⟨c, tl, hc, hcd⟩ := natChars_head_digit m.natAbs
      have hp : printNum m 0 ++ rest = natChars m.natAbs ++ rest := by
        unfold printNum
        simp [hm]
      rw [hp]
      have hneg : ¬ (natChars m.natAbs ++ rest).head? = some '-' := by
        rw [hc]
        intro hx
        have hcc : c = '-' := Option.some.inj hx
        rw [hcc] at hcd
        cases hcd
      unfold parseNumber
      simp only [hneg, if_false, decide_False, ite_false]
      simp [htake, hdrop, hne, hdot, digitsVal_natChars,
        abs_of_nonneg (not_lt.mp hm)]
  · have hmodlt : m.natAbs % 10 ^ e < 10 ^ e := Nat.mod_lt _ (by positivity)
    have hlenle : (natChars (m.natAbs % 10 ^ e)).length ≤ e :=
      natChars_length_le _ e (Nat.pos_of_ne_zero he) hmodlt
    obtain ⟨hftake, hfdrop⟩ := takeWhile_append_all
      (padZeros e (natChars (m.natAbs % 10 ^ e))) rest
      (padZeros_all_digits _ _ (natChars_all_digits _)) hnd
    have hdotint : ∀ c, ('.' :: (padZeros e (natChars (m.natAbs % 10 ^ e)) ++ rest)).head?
        = some c → c.isDigit = false := by
      intro c hc
      rw [List.head?_cons] at hc
      rw [← Option.some.inj hc]
      decide
    obtain ⟨hitake, hidrop⟩ := takeWhile_append_all
      (natChars (m.natAbs / 10 ^ e))
      ('.' :: (padZeros e (natChars (m.natAbs % 10 ^ e)) ++ rest))
      (natChars_all_digits _) hdotint
    have hne : (natChars (m.natAbs / 10 ^ e)).isEmpty = false := by
      simpa [List.isEmpty_iff] using natChars_ne_nil (m.natAbs / 10 ^ e)
    have hpzne : padZeros e (natChars (m.natAbs % 10 ^ e)) ≠ [] := by
      intro habs
      have hl := padZeros_length e (natChars (m.natAbs % 10 ^ e)) hlenle
      rw [habs] at hl
      simp at hl
      omega
    have hfe : (padZeros e (natChars (m.natAbs % 10 ^ e))).isEmpty = false := by
      simpa [List.isEmpty_iff] using hpzne
    have hbody : (natChars (m.natAbs / 10 ^ e) ++
        '.' :: padZeros e (natChars (m.natAbs % 10 ^ e))) ++ rest
        = natChars (m.natAbs / 10 ^ e) ++
          ('.' :: (padZeros e (natChars (m.natAbs % 10 ^ e)) ++ rest)) := by
      simp
    have hval : digitsVal (natChars (m.natAbs / 10 ^ e)) * 10 ^ e +
        digitsVal (padZeros e (natChars (m.natAbs % 10 ^ e))) = m.natAbs := by
      rw [digitsVal_padZeros, digitsVal_natChars, digitsVal_natChars,
        Nat.mul_comm]
      exact Nat.div_add_mod _ _
    have hsum : (digitsVal (natChars (m.natAbs / 10 ^ e)) : ℤ) * 10 ^ e +
        (digitsVal (padZeros e (natChars (m.natAbs % 10 ^ e))) : ℤ)
        = (m.natAbs : ℤ) := by
      exact_mod_cast hval
    by_cases hm : m < 0
    · have hp : printNum m e ++ rest = '-' :: (natChars (m.natAbs / 10 ^ e) ++
          ('.' :: (padZeros e (natChars (m.natAbs % 10 ^ e)) ++ rest))) := by
        unfold printNum
        simp [hm, he, hbody]
      rw [hp]
      unfold parseNumber
      simp only [List.head?_cons, List.tail_cons]
      simp [hitake, hidrop, hftake, hfdrop, hne, hfe,
        padZeros_length _ _ hlenle]
      have habs : ((m.natAbs : ℤ)) = -m := by omega
      linarith [hsum, habs]
    · obtain ⟨c, tl, hc, hcd⟩ := natChars_head_digit (m.natAbs / 10 ^ e)
      have hp : printNum m e ++ rest = natChars (m.natAbs / 10 ^ e) ++
          ('.' :: (padZeros e (natChars (m.natAbs % 10 ^ e)) ++ rest)) := by
        unfold printNum
        simp [hm, he, hbody]
      rw [hp]
      have hneg : ¬ (natChars (m.natAbs / 10 ^ e) ++
          ('.' :: (padZeros e (natChars (m.natAbs % 10 ^ e)) ++ rest))).head?
          = some '-' := by
        rw [hc]
        intro hx
        have hcc : c = '-' := Option.some.inj hx
        rw [hcc] at hcd
        cases hcd
      unfold parseNumber
      simp only [hneg, if_false, decide_False, ite_false]
      simp [hitake, hidrop, hftake, hfdrop, hne, hfe,
        padZeros_length _ _ hlenle]
      have habs : ((m.natAbs : ℤ)) = m := by omega
      linarith [hsum, habs]

theorem hexVal_hexDigitChar : ∀ d, d < 16 → hexVal (hexDigitChar d) = some d := by
  decide

theorem char_toNat_valid (c : Char) :
    c.toNat < 0xd800 ∨ (0xdfff < c.toNat ∧ c.toNat < 0x110000) := c.valid

set_option maxHeartbeats 1000000 in
theorem parseJStringAux_surrogatePair (fuel : ℕ) (acc rest : List Char)
    (d1 d2 d3 d4 e1 e2 e3 e4 : Char) (a b cc d a2 b2 c2 e2v : ℕ)
    (h1 : hexVal d1 = some a) (h2 : hexVal d2 = some b)
    (h3 : hexVal d3 = some cc) (h4 : hexVal d4 = some d)
    (h5 : hexVal e1 = some a2) (h6 : hexVal e2 = some b2)
    (h7 : hexVal e3 = some c2) (h8 : hexVal e4 = some e2v)
    (hn : 55296 ≤ a * 4096 + b * 256 + cc * 16 + d ∧
          a * 4096 + b * 256 + cc * 16 + d ≤ 56319)
    (hm : 56320 ≤ a2 * 4096 + b2 * 256 + c2 * 16 + e2v ∧
          a2 * 4096 + b2 * 256 + c2 * 16 + e2v ≤ 57343) :
    parseJStringAux (fuel + 1) acc
      ('\\' :: 'u' :: d1 :: d2 :: d3 :: d4 ::
       '\\' :: 'u' :: e1 :: e2 :: e3 :: e4 :: rest)
      = parseJStringAux fuel
          (Char.ofNat (65536 + (a * 4096 + b * 256 + cc * 16 + d - 55296) * 1024 +
             (a2 * 4096 + b2 * 256 + c2 * 16 + e2v - 56320)) :: acc) rest := by
  rw [parseJStringAux.eq_def]
  simp only [Char.reduceEq, if_true, if_false, ite_true, ite_false]
  rw [h1, h2, h3, h4]
  dsimp only
  rw [if_pos hn]
  rw [if_pos ⟨trivial, trivial⟩]
  rw [h5, h6, h7, h8]
  dsimp only
  rw [if_pos hm]

set_option maxHeartbeats 2000000 in
/-- One decoded character per printed escape: the decoder consumes exactly the
encoder's output for a single character and accumulates that character. -/
theorem parseJStringAux_escChar (c : Char) (fuel : ℕ) (acc rest : List Char) :
    parseJStringAux (fuel + 1) acc (escChar c ++ rest)
      = parseJStringAux fuel (c :: acc) rest := by
  have hv := char_toNat_valid c
  unfold escChar
  split_ifs with h1 h2 h3 h4 h5 h6 h7 h8 h9
  · subst h1; rfl
  · subst h2; rfl
  · subst h3; rfl
  · subst h4; rfl
  · subst h5; rfl
  · subst h6; rfl
  · subst h7; rfl
  · show parseJStringAux (fuel + 1) acc (c :: rest) = _
    rw [parseJStringAux.eq_def]
    dsimp only
    rw [if_neg h1, if_neg h2]
  · -- basic-plane u escape
    have hrec : c.toNat / 4096 % 16 * 4096 + c.toNat / 256 % 16 * 256 +
        c.toNat / 16 % 16 * 16 + c.toNat % 16 = c.toNat := by omega
    rw [parseJStringAux.eq_def]
    dsimp only [toHex4]
    simp only [List.cons_append, List.nil_append, Char.reduceEq, if_true,
      if_false, ite_true, ite_false]
    rw [hexVal_hexDigitChar _ (by omega), hexVal_hexDigitChar _ (by omega),
      hexVal_hexDigitChar _ (by omega), hexVal_hexDigitChar _ (by omega)]
    dsimp only
    rw [if_neg (by rcases hv with h | h <;> omega),
      if_neg (by rcases hv with h | h <;> omega)]
    rw [hrec, Char.ofNat_toNat]
  · -- astral plane: surrogate pair
    have hge : 65536 ≤ c.toNat := by omega
    have hlt : c.toNat < 1114112 := by
      rcases hv with h | h
      · omega
      · exact h.2
    simp only [toHex4, List.cons_append, List.nil_append, List.append_assoc]
    rw [parseJStringAux_surrogatePair fuel acc rest _ _ _ _ _ _ _ _
      ((55296 + (c.toNat - 65536) / 1024) / 4096 % 16)
      ((55296 + (c.toNat - 65536) / 1024) / 256 % 16)
      ((55296 + (c.toNat - 65536) / 1024) / 16 % 16)
      ((55296 + (c.toNat - 65536) / 1024) % 16)
      ((56320 + (c.toNat - 65536) % 1024) / 4096 % 16)
      ((56320 + (c.toNat - 65536) % 1024) / 256 % 16)
      ((56320 + (c.toNat - 65536) % 1024) / 16 % 16)
      ((56320 + (c.toNat - 65536) % 1024) % 16)
      (hexVal_hexDigitChar _ (by omega)) (hexVal_hexDigitChar _ (by omega))
      (hexVal_hexDigitChar _ (by omega)) (hexVal_hexDigitChar _ (by omega))
      (hexVal_hexDigitChar _ (by omega)) (hexVal_hexDigitChar _ (by omega))
      (hexVal_hexDigitChar _ (by omega)) (hexVal_hexDigitChar _ (by omega))
      (by constructor <;> omega) (by constructor <;> omega)]
    have hre : 65536 +
        ((55296 + (c.toNat - 65536) / 1024) / 4096 % 16 * 4096 +
         (55296 + (c.toNat - 65536) / 1024) / 256 % 16 * 256 +
         (55296 + (c.toNat - 65536) / 1024) / 16 % 16 * 16 +
         (55296 + (c.toNat - 65536) / 1024) % 16 - 55296) * 1024 +
        ((56320 + (c.toNat - 65536) % 1024) / 4096 % 16 * 4096 +
         (56320 + (c.toNat - 65536) % 1024) / 256 % 16 * 256 +
         (56320 + (c.toNat - 65536) % 1024) / 16 % 16 * 16 +
         (56320 + (c.toNat - 65536) % 1024) % 16 - 56320) = c.toNat := by
      omega
    rw [hre, Char.ofNat_toNat]

theorem escChar_length_pos (c : Char) : 1 ≤ (escChar c).length := by
  unfold escChar
  split_ifs <;> simp [toHex4]

theorem escList_length_ge (cs : List Char) : cs.length ≤ (escList cs).length := by
  induction cs with
  | nil => simp [escList]
  | cons c l ih =>
    simp only [escList, List.length_cons, List.length_append]
    have := escChar_length_pos c
    omega

theorem parseJStringAux_escList (cs : List Char) :
    ∀ (fuel : ℕ) (acc rest : List Char), cs.length ≤ fuel →
    parseJStringAux (fuel + 1) acc (escList cs ++ '"' :: rest)
      = some (String.mk (acc.reverse ++ cs), rest) := by
  induction cs with
  | nil =>
    intro fuel acc rest _
    simp only [escList, List.nil_append, List.append_nil]
    rfl
  | cons c l ih =>
    intro fuel acc rest h
    cases fuel with
    | zero => simp at h
    | succ f =>
      simp only [escList, List.append_assoc]
      rw [parseJStringAux_escChar c (f + 1) acc (escList l ++ '"' :: rest)]
      rw [ih f (c :: acc) rest (by simp at h; omega)]
      simp

theorem parseJStringAux_printJString (s : String) (fuel : ℕ) (rest : List Char)
    (hf : s.data.length ≤ fuel) :
    parseJStringAux (fuel + 1) [] (escList s.data ++ '"' :: rest)
      = some (s, rest) := by
  rw [parseJStringAux_escList s.data fuel [] rest hf]
  rfl

theorem sizeV_pos (v : Value) : 1 ≤ sizeV v := by
  cases v <;> simp [sizeV]

theorem tailOk_nil : TailOk [] := by intro c hc; cases hc

theorem tailOk_comma (l : List Char) : TailOk (',' :: l) := by
  intro c hc
  exact Or.inl (Option.some.inj hc).symm

theorem tailOk_newline (l : List Char) : TailOk ('\n' :: l) := by
  intro c hc
  exact Or.inr (Option.some.inj hc).symm

theorem skipWs_pre {pre : List Char} (h : AllWs pre) {c : Char}
    (hc : wsChar c = false) (l : List Char) :
    skipWs (pre ++ c :: l) = c :: l := by
  rw [skipWs_append_of_allWs _ h, skipWs_cons_of_not_ws _ hc]

theorem numHead_props (c : Char) (hc : c = '-' ∨ c.isDigit = true) :
    wsChar c = false ∧ c ≠ 'n' ∧ c ≠ 't' ∧ c ≠ 'f' ∧ c ≠ '"' ∧ c ≠ '[' ∧
      c ≠ '{' ∧ c ≠ ']' ∧ c ≠ '}' := by
  rcases hc with rfl | hd
  · refine ⟨by decide, by decide, by decide, by decide, by decide, by decide,
      by decide, by decide, by decide⟩
  · refine ⟨?_, ?_, ?_, ?_, ?_, ?_, ?_, ?_, ?_⟩
    · by_contra hws
      rw [Bool.not_eq_false] at hws
      have hcases : ((c = ' ' ∨ c = '\t') ∨ c = '\n') ∨ c = '\r' := by
        simpa [wsChar] using hws
      rcases hcases with ((rfl | rfl) | rfl) | rfl <;> exact absurd hd (by decide)
    all_goals (intro h; rw [h] at hd; exact absurd hd (by decide))

theorem printNum_head (m : ℤ) (e : ℕ) :
    ∃ c tl, printNum m e = c :: tl ∧ (c = '-' ∨ c.isDigit = true) := by
  unfold printNum
  by_cases hm : m < 0
  · refine ⟨'-', _, by rw [if_pos hm]; rfl, Or.inl rfl⟩
  · by_cases he : e = 0
    · obtain ⟨c, tl, hct, hcd⟩ := natChars_head_digit m.natAbs
      exact ⟨c, tl, by simp [hm, he, hct], Or.inr hcd⟩
    · obtain ⟨c, tl, hct, hcd⟩ := natChars_head_digit (m.natAbs / 10 ^ e)
      refine ⟨c, tl ++ '.' :: padZeros e (natChars (m.natAbs % 10 ^ e)), ?_,
        Or.inr hcd⟩
      rw [if_neg hm, if_neg he, hct]
      rfl

theorem printValue_head (ind : ℕ) (v : Value) :
    ∃ c tl, printValue ind v = c :: tl ∧ wsChar c = false ∧
      c ≠ ']' ∧ c ≠ '}' := by
  cases v with
  | null => exact ⟨'n', _, rfl, by decide, by decide, by decide⟩
  | bool b =>
    cases b
    · exact ⟨'f', _, rfl, by decide, by decide, by decide⟩
    · exact ⟨'t', _, rfl, by decide, by decide, by decide⟩
  | num m e =>
    obtain ⟨c, tl, hct, hcd⟩ := printNum_head m e
    obtain ⟨h1, _, _, _, _, _, _, h8, h9⟩ := numHead_props c hcd
    exact ⟨c, tl, by simpa [printValue] using hct, h1, h8, h9⟩
  | str s => exact ⟨'"', _, rfl, by decide, by decide, by decide⟩
  | arr l =>
    cases l
    · exact ⟨'[', _, rfl, by decide, by decide, by decide⟩
    · exact ⟨'[', _, rfl, by decide, by decide, by decide⟩
  | obj fs =>
    cases fs
    · exact ⟨'{', _, rfl, by decide, by decide, by decide⟩
    · exact ⟨'{', _, rfl, by decide, by decide, by decide⟩

theorem printElemsList_shape (ind : ℕ) (x : Value) (xs : List Value) :
    ∃ t, printElemsList ind (x :: xs) =
      spacesList ind ++ (printValue ind x ++ t) := by
  cases xs with
  | nil => exact ⟨[], by simp [printElemsList]⟩
  | cons y ys =>
    exact ⟨',' :: '\n' :: printElemsList ind (y :: ys),
      by simp [printElemsList]⟩

theorem printFieldsList_shape (ind : ℕ) (k : String) (v : Value)
    (fs : List (String × Value)) :
    ∃ t, printFieldsList ind ((k, v) :: fs) =
      spacesList ind ++ ('"' :: (escList k.data ++ '"' :: t)) := by
  cases fs with
  | nil =>
    exact ⟨':' :: ' ' :: printValue ind v,
      by simp [printFieldsList, printJString]⟩
  | cons g gs =>
    exact ⟨':' :: ' ' :: (printValue ind v ++
      ',' :: '\n' :: printFieldsList ind (g :: gs)),
      by simp [printFieldsList, printJString]⟩

set_option maxHeartbeats 4000000 in
theorem parse_print_all (fuel : ℕ) :
    (∀ (v : Value) (ind : ℕ) (pre rest : List Char),
        sizeV v ≤ fuel → AllWs pre → TailOk rest →
        parseValue fuel (pre ++ printValue ind v ++ rest) = some (v, rest)) ∧
    (∀ (x : Value) (xs : List Value) (ind j : ℕ) (pre rest : List Char),
        sizeVL (x :: xs) ≤ fuel → AllWs pre → TailOk rest →
        parseElems fuel
          (pre ++ printElemsList ind (x :: xs) ++
            '\n' :: spacesList j ++ ']' :: rest)
          = some (x :: xs, rest)) ∧
    (∀ (k : String) (v : Value) (fs : List (String × Value)) (ind j : ℕ)
        (pre rest : List Char),
        sizeVF ((k, v) :: fs) ≤ fuel → AllWs pre → TailOk rest →
        parseFields fuel
          (pre ++ printFieldsList ind ((k, v) :: fs) ++
            '\n' :: spacesList j ++ '}' :: rest)
          = some ((k, v) :: fs, rest)) := by
  induction fuel with
  | zero =>
    refine ⟨?_, ?_, ?_⟩
    · intro v ind pre rest hsz _ _
      have := sizeV_pos v
      omega
    · intro x xs ind j pre rest hsz _ _
      simp only [sizeVL] at hsz
      have := sizeV_pos x
      omega
    · intro k v fs ind j pre rest hsz _ _
      simp only [sizeVF] at hsz
      have := sizeV_pos v
      omega
  | succ fuel ih =>
    obtain ⟨ihV, ihE, ihF⟩ := ih
    refine ⟨?_, ?_, ?_⟩
    · intro v ind pre rest hsz hpre hrest
      cases v with
      | null =>
        have hskip : skipWs (pre ++ printValue ind .null ++ rest)
            = 'n' :: ('u' :: 'l' :: 'l' :: rest) := by
          simp only [printValue, List.cons_append, List.nil_append,
            List.append_assoc]
          exact skipWs_pre hpre (by decide) _
        rw [parseValue.eq_def]
        dsimp only
        rw [hskip]
        simp only [Char.reduceEq, if_true, if_false, ite_true, ite_false]
      | bool b =>
        cases b with
        | false =>
          have hskip : skipWs (pre ++ printValue ind (.bool false) ++ rest)
              = 'f' :: ('a' :: 'l' :: 's' :: 'e' :: rest) := by
            simp only [printValue, List.cons_append, List.nil_append,
              List.append_assoc]
            exact skipWs_pre hpre (by decide) _
          rw [parseValue.eq_def]
          dsimp only
          rw [hskip]
          simp only [Char.reduceEq, if_true, if_false, ite_true, ite_false]
        | true =>
          have hskip : skipWs (pre ++ printValue ind (.bool true) ++ rest)
              = 't' :: ('r' :: 'u' :: 'e' :: rest) := by
            simp only [printValue, List.cons_append, List.nil_append,
              List.append_assoc]
            exact skipWs_pre hpre (by decide) _
          rw [parseValue.eq_def]
          dsimp only
          rw [hskip]
          simp only [Char.reduceEq, if_true, if_false, ite_true, ite_false]
      | num m e =>
        obtain ⟨c, tl, hct, hcd⟩ := printNum_head m e
        obtain ⟨hws, hn, ht, hf, hq, hb, hc2, _, _⟩ := numHead_props c hcd
        have hskip : skipWs (pre ++ printValue ind (.num m e) ++ rest)
            = c :: (tl ++ rest) := by
          simp only [printValue, hct, List.cons_append, List.append_assoc]
          exact skipWs_pre hpre hws _
        rw [parseValue.eq_def]
        dsimp only
        rw [hskip]
        dsimp only
        rw [if_neg hn, if_neg ht, if_neg hf, if_neg hq, if_neg hb, if_neg hc2]
        rw [if_pos (by
          rcases hcd with h | h
          · exact Or.inl h
          · exact Or.inr (by simpa using h))]
        have hback : c :: (tl ++ rest) = printNum m e ++ rest := by
          rw [hct]
          rfl
        rw [hback, parseNumber_print m e rest hrest]
      | str s =>
        have hskip : skipWs (pre ++ printValue ind (.str s) ++ rest)
            = '"' :: (escList s.data ++ '"' :: rest) := by
          simp only [printValue, printJString, List.cons_append,
            List.nil_append, List.append_assoc]
          exact skipWs_pre hpre (by decide) _
        rw [parseValue.eq_def]
        dsimp only
        rw [hskip]
        simp only [Char.reduceEq, if_true, if_false, ite_true, ite_false]
        have hlen : s.data.length ≤ (escList s.data ++ '"' :: rest).length := by
          simp only [List.length_append, List.length_cons]
          have := escList_length_ge s.data
          omega
        rw [parseJStringAux_printJString s _ rest hlen]
      | arr l =>
        cases l with
        | nil =>
          have hskip : skipWs (pre ++ printValue ind (.arr []) ++ rest)
              = '[' :: (']' :: rest) := by
            simp only [printValue, List.cons_append, List.nil_append,
              List.append_assoc]
            exact skipWs_pre hpre (by decide) _
          rw [parseValue.eq_def]
          dsimp only
          rw [hskip]
          simp only [Char.reduceEq, if_true, if_false, ite_true, ite_false]
          rw [skipWs_cons_of_not_ws _ (by decide)]
          simp
        | cons x xs =>
          obtain ⟨t, hshape⟩ := printElemsList_shape (ind + 2) x xs
          obtain ⟨c, tl, hct, hws, hne1, _⟩ := printValue_head (ind + 2) x
          have hskip : skipWs (pre ++ printValue ind (.arr (x :: xs)) ++ rest)
              = '[' :: ('\n' :: (printElemsList (ind + 2) (x :: xs) ++
                  '\n' :: (spacesList ind ++ ']' :: rest))) := by
            simp only [printValue, List.cons_append, List.nil_append,
              List.append_assoc]
            exact skipWs_pre hpre (by decide) _
          rw [parseValue.eq_def]
          dsimp only
          rw [hskip]
          dsimp only
          simp only [Char.reduceEq, if_true, if_false, ite_true, ite_false]
          have hskip2 : skipWs ('\n' :: (printElemsList (ind + 2) (x :: xs) ++
              '\n' :: (spacesList ind ++ ']' :: rest)))
              = c :: (tl ++ (t ++ '\n' :: (spacesList ind ++ ']' :: rest))) := by
            rw [hshape, hct]
            have : '\n' :: ((spacesList (ind + 2) ++ (c :: tl ++ t)) ++
                '\n' :: (spacesList ind ++ ']' :: rest))
                = ('\n' :: spacesList (ind + 2)) ++
                  c :: (tl ++ (t ++ '\n' :: (spacesList ind ++ ']' :: rest))) := by
              simp
            rw [this]
            exact skipWs_pre (allWs_cons (by decide) (allWs_spacesList _)) hws _
          rw [if_neg (by
            rw [hskip2]
            intro habs
            exact hne1 (Option.some.inj habs))]
          have hszE : sizeVL (x :: xs) ≤ fuel := by
            simp only [sizeV] at hsz
            omega
          have hE := ihE x xs (ind + 2) ind ['\n'] rest hszE
            (allWs_cons (by decide) allWs_nil) hrest
          simp only [List.cons_append, List.nil_append, List.append_assoc] at hE
          rw [hE]
      | obj l =>
        cases l with
        | nil =>
          have hskip : skipWs (pre ++ printValue ind (.obj []) ++ rest)
              = '{' :: ('}' :: rest) := by
            simp only [printValue, List.cons_append, List.nil_append,
              List.append_assoc]
            exact skipWs_pre hpre (by decide) _
          rw [parseValue.eq_def]
          dsimp only
          rw [hskip]
          simp only [Char.reduceEq, if_true, if_false, ite_true, ite_false]
          rw [skipWs_cons_of_not_ws _ (by decide)]
          simp
        | cons f fs =>
          obtain ⟨k, v⟩ := f
          obtain ⟨t, hshape⟩ := printFieldsList_shape (ind + 2) k v fs
          have hskip : skipWs (pre ++ printValue ind (.obj ((k, v) :: fs)) ++ rest)
              = '{' :: ('\n' :: (printFieldsList (ind + 2) ((k, v) :: fs) ++
                  '\n' :: (spacesList ind ++ '}' :: rest))) := by
            simp only [printValue, List.cons_append, List.nil_append,
              List.append_assoc]
            exact skipWs_pre hpre (by decide) _
          rw [parseValue.eq_def]
          dsimp only
          rw [hskip]
          dsimp only
          simp only [Char.reduceEq, if_true, if_false, ite_true, ite_false]
          have hskip2 : skipWs ('\n' :: (printFieldsList (ind + 2) ((k, v) :: fs) ++
              '\n' :: (spacesList ind ++ '}' :: rest)))
              = '"' :: ((escList k.data ++ '"' :: t) ++
                  ('\n' :: (spacesList ind ++ '}' :: rest))) := by
            rw [hshape]
            have : '\n' :: ((spacesList (ind + 2) ++
                ('"' :: (escList k.data ++ '"' :: t))) ++
                '\n' :: (spacesList ind ++ '}' :: rest))
                = ('\n' :: spacesList (ind + 2)) ++
                  '"' :: ((escList k.data ++ '"' :: t) ++
                    ('\n' :: (spacesList ind ++ '}' :: rest))) := by
              simp
            rw [this]
            exact skipWs_pre (allWs_cons (by decide) (allWs_spacesList _))
              (by decide) _
          rw [if_neg (by
            rw [hskip2]
            intro habs
            cases Option.some.inj habs)]
          have hszF : sizeVF ((k, v) :: fs) ≤ fuel := by
            simp only [sizeV] at hsz
            omega
          have hF := ihF k v fs (ind + 2) ind ['\n'] rest hszF
            (allWs_cons (by decide) allWs_nil) hrest
          simp only [List.cons_append, List.nil_append, List.append_assoc] at hF
          rw [hF]
    · intro x xs ind j pre rest hsz hpre hrest
      rw [parseElems.eq_def]
      dsimp only
      cases xs with
      | nil =>
        have hV := ihV x ind (pre ++ spacesList ind)
          ('\n' :: (spacesList j ++ ']' :: rest))
          (by simp only [sizeVL] at hsz; omega)
          (allWs_append hpre (allWs_spacesList _))
          (tailOk_newline _)
        have hCS : pre ++ printElemsList ind [x] ++
            '\n' :: spacesList j ++ ']' :: rest
            = (pre ++ spacesList ind) ++ printValue ind x ++
              ('\n' :: (spacesList j ++ ']' :: rest)) := by
          simp [printElemsList]
        rw [hCS, hV]
        dsimp only
        have hs2 : skipWs ('\n' :: (spacesList j ++ ']' :: rest))
            = ']' :: rest := by
          have hrw : '\n' :: (spacesList j ++ ']' :: rest)
              = ('\n' :: spacesList j) ++ ']' :: rest := by
            simp
          rw [hrw]
          exact skipWs_pre (allWs_cons (by decide) (allWs_spacesList _))
            (by decide) _
        rw [hs2]
        rfl
      | cons y ys =>
        have hV := ihV x ind (pre ++ spacesList ind)
          (',' :: '\n' :: (printElemsList ind (y :: ys) ++
            '\n' :: (spacesList j ++ ']' :: rest)))
          (by simp only [sizeVL] at hsz; omega)
          (allWs_append hpre (allWs_spacesList _))
          (tailOk_comma _)
        have hCS : pre ++ printElemsList ind (x :: y :: ys) ++
            '\n' :: spacesList j ++ ']' :: rest
            = (pre ++ spacesList ind) ++ printValue ind x ++
              (',' :: '\n' :: (printElemsList ind (y :: ys) ++
                '\n' :: (spacesList j ++ ']' :: rest))) := by
          simp [printElemsList]
        rw [hCS, hV]
        dsimp only
        rw [skipWs_cons_of_not_ws _ (by decide)]
        simp only [Char.reduceEq, if_true, if_false, ite_true, ite_false]
        have hE := ihE y ys ind j ['\n'] rest
          (by simp only [sizeVL] at hsz ⊢; omega)
          (allWs_cons (by decide) allWs_nil) hrest
        simp only [List.cons_append, List.nil_append, List.append_assoc] at hE
        rw [hE]
    · intro k v fs ind j pre rest hsz hpre hrest
      rw [parseFields.eq_def]
      dsimp only
      cases fs with
      | nil =>
        have hskip : skipWs (pre ++ printFieldsList ind [(k, v)] ++
            '\n' :: spacesList j ++ '}' :: rest)
            = '"' :: (escList k.data ++ '"' ::
                (':' :: ' ' :: (printValue ind v ++
                  '\n' :: (spacesList j ++ '}' :: rest)))) := by
          have hrw : pre ++ printFieldsList ind [(k, v)] ++
              '\n' :: spacesList j ++ '}' :: rest
              = (pre ++ spacesList ind) ++ '"' ::
                (escList k.data ++ '"' ::
                  (':' :: ' ' :: (printValue ind v ++
                    '\n' :: (spacesList j ++ '}' :: rest)))) := by
            simp [printFieldsList, printJString]
          rw [hrw]
          exact skipWs_pre (allWs_append hpre (allWs_spacesList _))
            (by decide) _
        rw [hskip]
        simp only [Char.reduceEq, if_true, if_false, ite_true, ite_false]
        have hlen : k.data.length ≤ (escList k.data ++ '"' ::
            (':' :: ' ' :: (printValue ind v ++
              '\n' :: (spacesList j ++ '}' :: rest)))).length := by
          simp only [List.length_append, List.length_cons]
          have := escList_length_ge k.data
          omega
        rw [parseJStringAux_printJString k _ _ hlen]
        dsimp only
        rw [skipWs_cons_of_not_ws _ (by decide)]
        simp only [Char.reduceEq, if_true, if_false, ite_true, ite_false]
        have hV := ihV v ind [' ']
          ('\n' :: (spacesList j ++ '}' :: rest))
          (by simp only [sizeVF] at hsz; omega)
          (allWs_cons (by decide) allWs_nil)
          (tailOk_newline _)
        simp only [List.cons_append, List.nil_append, List.append_assoc] at hV
        rw [hV]
        dsimp only
        have hs2 : skipWs ('\n' :: (spacesList j ++ '}' :: rest))
            = '}' :: rest := by
          have hrw : '\n' :: (spacesList j ++ '}' :: rest)
              = ('\n' :: spacesList j) ++ '}' :: rest := by
            simp
          rw [hrw]
          exact skipWs_pre (allWs_cons (by decide) (allWs_spacesList _))
            (by decide) _
        rw [hs2]
        rfl
      | cons g gs =>
        obtain ⟨k2, v2⟩ := g
        have hskip : skipWs (pre ++ printFieldsList ind ((k, v) :: (k2, v2) :: gs) ++
            '\n' :: spacesList j ++ '}' :: rest)
            = '"' :: (escList k.data ++ '"' ::
                (':' :: ' ' :: (printValue ind v ++
                  ',' :: '\n' :: (printFieldsList ind ((k2, v2) :: gs) ++
                    '\n' :: (spacesList j ++ '}' :: rest))))) := by
          have hrw : pre ++ printFieldsList ind ((k, v) :: (k2, v2) :: gs) ++
              '\n' :: spacesList j ++ '}' :: rest
              = (pre ++ spacesList ind) ++ '"' ::
                (escList k.data ++ '"' ::
                  (':' :: ' ' :: (printValue ind v ++
                    ',' :: '\n' :: (printFieldsList ind ((k2, v2) :: gs) ++
                      '\n' :: (spacesList j ++ '}' :: rest))))) := by
            simp [printFieldsList, printJString]
          rw [hrw]
          exact skipWs_pre (allWs_append hpre (allWs_spacesList _))
            (by decide) _
        rw [hskip]
        simp only [Char.reduceEq, if_true, if_false, ite_true, ite_false]
        have hlen : k.data.length ≤ (escList k.data ++ '"' ::
            (':' :: ' ' :: (printValue ind v ++
              ',' :: '\n' :: (printFieldsList ind ((k2, v2) :: gs) ++
                '\n' :: (spacesList j ++ '}' :: rest))))).length := by
          simp only [List.length_append, List.length_cons]
          have := escList_length_ge k.data
          omega
        rw [parseJStringAux_printJString k _ _ hlen]
        dsimp only
        rw [skipWs_cons_of_not_ws _ (by decide)]
        simp only [Char.reduceEq, if_true, if_false, ite_true, ite_false]
        have hV := ihV v ind [' ']
          (',' :: '\n' :: (printFieldsList ind ((k2, v2) :: gs) ++
            '\n' :: (spacesList j ++ '}' :: rest)))
          (by simp only [sizeVF] at hsz; omega)
          (allWs_cons (by decide) allWs_nil)
          (tailOk_comma _)
        simp only [List.cons_append, List.nil_append, List.append_assoc] at hV
        rw [hV]
        dsimp only
        rw [skipWs_cons_of_not_ws _ (by decide)]
        simp only [Char.reduceEq, if_true, if_false, ite_true, ite_false]
        have hF := ihF k2 v2 gs ind j ['\n'] rest
          (by simp only [sizeVF] at hsz ⊢; omega)
          (allWs_cons (by decide) allWs_nil) hrest
        simp only [List.cons_append, List.nil_append, List.append_assoc] at hF
        rw [hF]

theorem printNum_length_pos (m : ℤ) (e : ℕ) : 1 ≤ (printNum m e).length := by
  obtain ⟨c, tl, hct, _⟩ := printNum_head m e
  rw [hct]
  simp

theorem sizeVL_le (ind : ℕ) (l : List Value)
    (h : ∀ x ∈ l, ∀ i, sizeV x ≤ (printValue i x).length) :
    sizeVL l ≤ (printElemsList ind l).length + 1 := by
  induction l with
  | nil => simp [sizeVL, printElemsList]
  | cons x xs ih =>
    have hx := h x (by simp) ind
    cases xs with
    | nil =>
      simp only [sizeVL, printElemsList, List.length_append, spacesList,
        List.length_replicate]
      omega
    | cons y ys =>
      have ht := ih (fun z hz i => h z (by simp [hz]) i)
      simp only [sizeVL, printElemsList, List.length_append, spacesList,
        List.length_replicate, List.length_cons] at ht ⊢
      omega

theorem sizeVF_le (ind : ℕ) (fs : List (String × Value))
    (h : ∀ p ∈ fs, ∀ i, sizeV p.2 ≤ (printValue i p.2).length) :
    sizeVF fs ≤ (printFieldsList ind fs).length + 1 := by
  induction fs with
  | nil => simp [sizeVF, printFieldsList]
  | cons p fs ih =>
    obtain ⟨k, v⟩ := p
    have hx : sizeV v ≤ (printValue ind v).length := h (k, v) (by simp) ind
    cases fs with
    | nil =>
      simp only [sizeVF, printFieldsList, List.length_append, spacesList,
        List.length_replicate, List.length_cons] at hx ⊢
      omega
    | cons g gs =>
      have ht := ih (fun z hz i => h z (by simp [hz]) i)
      simp only [sizeVF, printFieldsList, List.length_append, spacesList,
        List.length_replicate, List.length_cons] at ht ⊢
      omega

theorem sizeV_le_printValue (v : Value) : ∀ ind, sizeV v ≤ (printValue ind v).length := by
  induction v using Value.inductionOn with
  | hnull => intro ind; simp [sizeV, printValue]
  | hbool b => intro ind; cases b <;> simp [sizeV, printValue]
  | hnum m e =>
    intro ind
    have := printNum_length_pos m e
    simpa [sizeV, printValue] using this
  | hstr s => intro ind; simp [sizeV, printValue, printJString]
  | harr l hmem =>
    intro ind
    cases l with
    | nil => simp [sizeV, sizeVL, printValue]
    | cons x xs =>
      have := sizeVL_le (ind + 2) (x :: xs) hmem
      simp only [sizeV, printValue, List.length_cons, List.length_append,
        spacesList, List.length_replicate] at this ⊢
      omega
  | hobj fs hmem =>
    intro ind
    cases fs with
    | nil => simp [sizeV, sizeVF, printValue]
    | cons f gs =>
      have := sizeVF_le (ind + 2) (f :: gs) hmem
      simp only [sizeV, printValue, List.length_cons, List.length_append,
        spacesList, List.length_replicate] at this ⊢
      omega

theorem jsonParse_jsonPrint (v : Value) : jsonParse (jsonPrint v) = some v := by
  unfold jsonParse jsonPrint
  have h := (parse_print_all ((printValue 0 v).length + 1)).1 v 0 [] []
    (by have := sizeV_le_printValue v 0; omega) allWs_nil tailOk_nil
  simp only [List.nil_append, List.append_nil] at h
  rw [show (String.mk (printValue 0 v)).data = printValue 0 v from rfl, h]
  rfl

/-- **C8** Round-trip persistence: for every completed report, the JSON
document `main` serializes (a nested record with the target, the requested
module list and the results mapping, indented by two spaces), once
reloaded by a JSON reader, yields exactly the in-memory report value it
was produced from, field for field. -/
theorem c8_round_trip_persistence {σ : Type} (menv : MainEnv σ) (args : Args) :
    jsonParse (mainDoc menv args)
      = some (reportJson ⟨args.target, argModules args, mainResults menv args⟩) :=
  jsonParse_jsonPrint (reportJson ⟨args.target, argModules args, mainResults menv args⟩)
